import Mathlib

/-!
Verification development for the DepViz extraction / resolution / caching
pipeline.  The definitions below are a shallow embedding of the TypeScript
sources:

  * `src/shared/parseUtils.ts`  — `stripStringsAndComments`,
    `resolveImportLabelByText`
  * `src/services/parse/utils.ts` — id helpers, second copy of the strip
  * `src/services/parse/index.ts` — `parseFile`, `staticImportArtifacts`
  * `src/services/parse/lspParser.ts` — `parseWithLsp`, `addSameFileCallEdges`
  * `src/services/resolve/crossFileCalls.ts`
  * `src/services/import/importService.ts` — `importUri`, `importMany`,
    `findFilesFromRoots`
  * `src/services/parse/parseService.ts` — the Parse Index

Text is modelled as `List Char` (`Chars`).  The JavaScript regular
expressions used by the sources are embedded as deterministic scanners that
implement the exact match semantics of each concrete regex (leftmost match,
alternation order, lazy/greedy behaviour, the `m`/`i` flags, the fact that a
negated character class matches line terminators while `.` does not).
Asynchronous provider calls (LSP symbol queries, call-hierarchy queries, the
file system, the webview sink) are modelled as explicit function parameters:
a `none`/`Except.error` value models a provider failure or timeout.
-/

namespace DepViz

/-- Characters written via code points so that quote/backslash characters
never appear as literals in the source of this file. -/
def nlC : Char := Char.ofNat 10
def crC : Char := Char.ofNat 13
def tabC : Char := Char.ofNat 9
def spC : Char := Char.ofNat 32
def bsC : Char := Char.ofNat 92
def dqC : Char := Char.ofNat 34
def sqC : Char := Char.ofNat 39
def btC : Char := Char.ofNat 96
def slashC : Char := Char.ofNat 47
def backslashC : Char := bsC
def starC : Char := Char.ofNat 42
def hashC : Char := Char.ofNat 35
def dashC : Char := Char.ofNat 45
def semiC : Char := Char.ofNat 59
def dotC : Char := Char.ofNat 46
def lparC : Char := Char.ofNat 40
def rparC : Char := Char.ofNat 41
def colonC : Char := Char.ofNat 58
def usC : Char := Char.ofNat 95

abbrev Chars := List Char

/-- Number of newline (LF) characters: the line-count measure used by the
spec ("same count of newline characters"). -/
def nlCount (s : Chars) : Nat := s.countP (fun c => c = nlC)

/-- JavaScript line terminators relevant to `.`(no match) and multiline
`^`/`$` (match boundary): LF and CR (the Unicode LS/PS never occur in the
ASCII inputs considered here). -/
def isLineTerm (c : Char) : Bool := c = nlC || c = crC

/-- JavaScript `\s` on the ASCII range: space, tab, LF, CR, VT, FF. -/
def isWs (c : Char) : Bool :=
  c = spC || c = tabC || c = nlC || c = crC || c = Char.ofNat 11 || c = Char.ofNat 12

/-- JavaScript `\w` : `[A-Za-z0-9_]`. -/
def isWordC (c : Char) : Bool :=
  (Char.ofNat 65 ≤ c && c ≤ Char.ofNat 90) ||
  (Char.ofNat 97 ≤ c && c ≤ Char.ofNat 122) ||
  (Char.ofNat 48 ≤ c && c ≤ Char.ofNat 57) || c = usC

/-- `[A-Za-z_]`. -/
def isAlphaU (c : Char) : Bool :=
  (Char.ofNat 65 ≤ c && c ≤ Char.ofNat 90) ||
  (Char.ofNat 97 ≤ c && c ≤ Char.ofNat 122) || c = usC

/-- Split a list at the first occurrence of `pat`: returns the part before
the occurrence and the part after it. -/
def splitAtFirst (pat : Chars) : Chars → Option (Chars × Chars)
  | [] => if pat = [] then some ([], []) else none
  | c :: rest =>
    if pat.isPrefixOf (c :: rest) then some ([], (c :: rest).drop pat.length)
    else (splitAtFirst pat rest).map (fun p => (c :: p.1, p.2))

theorem splitAtFirst_append (pat : Chars) :
    ∀ s a b, splitAtFirst pat s = some (a, b) → a ++ pat ++ b = s := by
  intro s
  induction s with
  | nil =>
    intro a b h
    simp only [splitAtFirst] at h
    by_cases hp : pat = ([] : Chars)
    · rw [if_pos hp] at h
      simp only [Option.some.injEq, Prod.mk.injEq] at h
      obtain ⟨ha, hb⟩ := h
      simp [hp, ← ha, ← hb]
    · rw [if_neg hp] at h; exact absurd h (by simp)
  | cons c rest ih =>
    intro a b h
    simp only [splitAtFirst] at h
    by_cases hp : pat.isPrefixOf (c :: rest)
    · rw [if_pos hp] at h
      simp only [Option.some.injEq, Prod.mk.injEq] at h
      obtain ⟨ha, hb⟩ := h
      obtain ⟨t, ht⟩ := List.isPrefixOf_iff_prefix.mp hp
      subst ha
      rw [← hb, ← ht, List.drop_left, List.nil_append]
    · rw [if_neg hp] at h
      simp only [Option.map_eq_some'] at h
      obtain ⟨⟨a', b'⟩, hsp, heq⟩ := h
      have hr := ih a' b' hsp
      have ha : a = c :: a' := by
        have := congrArg Prod.fst heq; simpa using this.symm
      have hb : b = b' := by
        have := congrArg Prod.snd heq; simpa using this.symm
      subst ha; subst hb
      simpa using congrArg (fun l => c :: l) hr

theorem splitAtFirst_length (pat : Chars) (s a b : Chars)
    (h : splitAtFirst pat s = some (a, b)) :
    a.length + pat.length + b.length = s.length := by
  have h2 := congrArg List.length (splitAtFirst_append pat s a b h)
  simp only [List.length_append] at h2
  omega

/-- One global pass of
`s.replace(OPEN[\s\S]*?CLOSE, m => LF.repeat(countLF m))`:
each block comment is replaced by as many newlines as it contained.
`fuel`-driven recursion; the wrapper supplies `s.length` as fuel. -/
def stripBlockGo (openT closeT : Chars) : Nat → Chars → Chars
  | 0, s => s
  | _ + 1, [] => []
  | fuel + 1, c :: rest =>
    if openT.isPrefixOf (c :: rest) ∧ openT ≠ [] then
      match splitAtFirst closeT ((c :: rest).drop openT.length) with
      | some (inside, after) =>
        List.replicate (nlCount (openT ++ inside ++ closeT)) nlC ++
          stripBlockGo openT closeT fuel after
      | none => c :: stripBlockGo openT closeT fuel rest
    else c :: stripBlockGo openT closeT fuel rest

def stripBlock (openT closeT : Chars) (s : Chars) : Chars :=
  stripBlockGo openT closeT s.length s

/-- The body of a quoted string after the opening quote, as matched by
`[^Q\x5c]*(?:\x5c.[^Q\x5c]*)*Q` (Q the quote char): any run of
non-quote/non-backslash characters (newlines included — a negated class
matches line terminators) interleaved with backslash escapes whose escaped
character is matched by `.` and therefore must not be a line terminator.
Returns the matched part (closing quote included) and the rest. -/
def scanStrGo (q : Char) : Nat → Chars → Option (Chars × Chars)
  | 0, _ => none
  | _ + 1, [] => none
  | _ + 1, [c] => if c = q then some ([q], []) else none
  | fuel + 1, c :: d :: rest2 =>
    if c = q then some ([q], d :: rest2)
    else if c = bsC then
      if isLineTerm d then none
      else (scanStrGo q fuel rest2).map (fun p => (c :: d :: p.1, p.2))
    else (scanStrGo q fuel (d :: rest2)).map (fun p => (c :: p.1, p.2))

def scanStr (q : Char) (s : Chars) : Option (Chars × Chars) :=
  scanStrGo q s.length s

theorem scanStrGo_append (q : Char) :
    ∀ fuel s m r, scanStrGo q fuel s = some (m, r) → m ++ r = s := by
  intro fuel
  induction fuel with
  | zero => intro s m r h; simp [scanStrGo] at h
  | succ fuel ih =>
    intro s m r h
    match s with
    | [] => simp [scanStrGo] at h
    | [c] =>
      simp only [scanStrGo] at h
      by_cases hq : c = q
      · rw [if_pos hq] at h
        simp only [Option.some.injEq, Prod.mk.injEq] at h
        obtain ⟨hm, hr⟩ := h
        simp [← hm, ← hr, hq]
      · rw [if_neg hq] at h; exact absurd h (by simp)
    | c :: d :: rest2 =>
      simp only [scanStrGo] at h
      by_cases hq : c = q
      · rw [if_pos hq] at h
        simp only [Option.some.injEq, Prod.mk.injEq] at h
        obtain ⟨hm, hr⟩ := h
        simp [← hm, ← hr, hq]
      · rw [if_neg hq] at h
        by_cases hb : c = bsC
        · rw [if_pos hb] at h
          by_cases hd : isLineTerm d
          · rw [if_pos hd] at h; exact absurd h (by simp)
          · rw [if_neg hd] at h
            simp only [Option.map_eq_some'] at h
            obtain ⟨⟨m', r'⟩, hs, heq⟩ := h
            have hmr := ih rest2 m' r' hs
            have hm : m = c :: d :: m' := by
              have := congrArg Prod.fst heq; simpa using this.symm
            have hr : r = r' := by
              have := congrArg Prod.snd heq; simpa using this.symm
            subst hm; subst hr
            simp [hmr]
        · rw [if_neg hb] at h
          simp only [Option.map_eq_some'] at h
          obtain ⟨⟨m', r'⟩, hs, heq⟩ := h
          have hmr := ih (d :: rest2) m' r' hs
          have hm : m = c :: m' := by
            have := congrArg Prod.fst heq; simpa using this.symm
          have hr : r = r' := by
            have := congrArg Prod.snd heq; simpa using this.symm
          subst hm; subst hr
          simp [hmr]

theorem scanStr_append (q : Char) (s m r : Chars)
    (h : scanStr q s = some (m, r)) : m ++ r = s :=
  scanStrGo_append q s.length s m r h

theorem scanStr_length (q : Char) (s m r : Chars)
    (h : scanStr q s = some (m, r)) : m.length + r.length = s.length := by
  have h2 := congrArg List.length (scanStr_append q s m r h)
  simp only [List.length_append] at h2
  omega

/-- `takeLine s = (line, rest)`: `line` is the maximal prefix free of line
terminators (what `.*` matches up to the multiline `$`), `rest` starts at
the terminator. -/
def takeLine : Chars → Chars × Chars
  | [] => ([], [])
  | c :: rest =>
    if isLineTerm c then ([], c :: rest)
    else
      let p := takeLine rest
      (c :: p.1, p.2)

theorem takeLine_append : ∀ s, (takeLine s).1 ++ (takeLine s).2 = s := by
  intro s
  induction s with
  | nil => simp [takeLine]
  | cons c rest ih =>
    by_cases h : isLineTerm c
    · simp [takeLine, h]
    · simp [takeLine, h, ih]

theorem takeLine_no_nl : ∀ s, nlCount (takeLine s).1 = 0 := by
  intro s
  induction s with
  | nil => simp [takeLine, nlCount]
  | cons c rest ih =>
    by_cases h : isLineTerm c
    · simp [takeLine, h, nlCount]
    · have hcn : ¬ (c = nlC) := by
        intro hc; rw [hc] at h; simp [isLineTerm] at h
      simp only [takeLine, h, Bool.false_eq_true, if_false]
      simpa [nlCount, hcn] using ih

theorem takeLine_fst_length_le (s : Chars) : (takeLine s).1.length ≤ s.length := by
  conv_rhs => rw [← takeLine_append s]
  simp

theorem takeLine_snd_length_le (s : Chars) : (takeLine s).2.length ≤ s.length := by
  conv_rhs => rw [← takeLine_append s]
  simp [Nat.le_add_left]

/-- Does the text start with one of the single-line comment markers
`//`, `#`, `--`, `;` of the combined pass-2 regex? -/
def isCommentStart : Chars → Bool
  | c :: d :: _ =>
    (c = slashC && d = slashC) || c = hashC || (c = dashC && d = dashC) || c = semiC
  | [c] => c = hashC || c = semiC
  | [] => false

/-- Pass 2 of `stripStringsAndComments`: the single global replace
`(^|[ \t])(?:[//|#|--|;])(.*)$ | DQSTR | SQSTR | BTSTR` (flags `gm`),
comment matches replaced by their lead, string matches kept verbatim.
`atStart` tracks whether the current position is a line start (position 0 or
preceded by a line terminator — multiline `^`). -/
def pass2Go : Nat → Bool → Chars → Chars
  | 0, _, s => s
  | _ + 1, _, [] => []
  | fuel + 1, atStart, c :: rest =>
    if atStart ∧ isCommentStart (c :: rest) then
      -- lead `^`, marker at the current position: drop up to end of line
      pass2Go fuel false (takeLine (c :: rest)).2
    else if (c = spC ∨ c = tabC) ∧ isCommentStart rest then
      -- lead `[ \t]`: keep the lead, drop marker and rest of line
      c :: pass2Go fuel false (takeLine rest).2
    else if c = dqC ∨ c = sqC ∨ c = btC then
      match scanStr c rest with
      | some (m, r) => (c :: m) ++ pass2Go fuel false r
      | none => c :: pass2Go fuel (isLineTerm c) rest
    else c :: pass2Go fuel (isLineTerm c) rest

def pass2 (s : Chars) : Chars := pass2Go s.length true s

/-- Pass 3 of `stripStringsAndComments` for one quote character:
`s.replace(QSTR, Q ++ Q)` — every matched literal collapses to an empty
quoted pair. -/
def wipeGo (q : Char) : Nat → Chars → Chars
  | 0, s => s
  | _ + 1, [] => []
  | fuel + 1, c :: rest =>
    if c = q then
      match scanStr q rest with
      | some (_, r) => q :: q :: wipeGo q fuel r
      | none => c :: wipeGo q fuel rest
    else c :: wipeGo q fuel rest

def wipe (q : Char) (s : Chars) : Chars := wipeGo q s.length s

def openJsBlock : Chars := [slashC, starC]
def closeJsBlock : Chars := [starC, slashC]
def openHtml : Chars := [Char.ofNat 60, Char.ofNat 33, dashC, dashC]
def closeHtml : Chars := [dashC, dashC, Char.ofNat 62]

/-- `stripStringsAndComments` from `src/shared/parseUtils.ts` (an identical
copy lives in `src/services/parse/utils.ts`): block comments replaced by
their newlines, then the combined comment/string pass, then the three
string-wiping passes. -/
def stripSC (s : Chars) : Chars :=
  wipe btC (wipe sqC (wipe dqC (pass2
    (stripBlock openHtml closeHtml (stripBlock openJsBlock closeJsBlock s)))))

def stripStringsAndComments (s : String) : String :=
  String.mk (stripSC s.data)

/-! ### Line-count behaviour of `stripStringsAndComments` (claim C9) -/

/-- No double quote, single quote or backtick occurs in the text. -/
def noQuote (s : Chars) : Bool :=
  s.all (fun c => !(c = dqC || c = sqC || c = btC))

theorem nlCount_append (a b : Chars) :
    nlCount (a ++ b) = nlCount a + nlCount b := by
  simp [nlCount, List.countP_append]

theorem nlCount_replicate (n : Nat) :
    nlCount (List.replicate n nlC) = n := by
  induction n with
  | zero => simp [nlCount]
  | succ n ih => simp [nlCount, List.replicate_succ, List.countP_cons] at *; omega

/-- Block-comment removal replaces each match by exactly its newline count,
so pass 1 preserves the newline count of any input. -/
theorem stripBlockGo_nl (o cl : Chars) :
    ∀ fuel s, nlCount (stripBlockGo o cl fuel s) = nlCount s := by
  intro fuel
  induction fuel with
  | zero => intro s; rfl
  | succ fuel ih =>
    intro s
    match s with
    | [] => rfl
    | c :: rest =>
      simp only [stripBlockGo]
      by_cases hp : o.isPrefixOf (c :: rest) ∧ o ≠ []
      · rw [if_pos hp]
        cases hsp : splitAtFirst cl ((c :: rest).drop o.length) with
        | none => simp only [nlCount, List.countP_cons] at *; rw [ih rest]
        | some p =>
          obtain ⟨inside, after⟩ := p
          obtain ⟨t, ht⟩ := List.isPrefixOf_iff_prefix.mp hp.1
          have hdrop : (c :: rest).drop o.length = t := by
            rw [← ht, List.drop_left]
          have hsplit : inside ++ cl ++ after = t := by
            have := splitAtFirst_append cl ((c :: rest).drop o.length)
              inside after hsp
            rw [hdrop] at this; exact this
          have hs : c :: rest = o ++ (inside ++ cl ++ after) := by
            rw [hsplit, ht]
          rw [nlCount_append, nlCount_replicate, ih after, hs]
          simp only [nlCount_append]
          omega
      · rw [if_neg hp]
        simp only [nlCount, List.countP_cons] at *
        rw [ih rest]

/-- Every character emitted by pass 1 is a character of the input or a
newline. -/
theorem stripBlockGo_mem (o cl : Chars) :
    ∀ fuel s x, x ∈ stripBlockGo o cl fuel s → x ∈ s ∨ x = nlC := by
  intro fuel
  induction fuel with
  | zero => intro s x hx; exact Or.inl hx
  | succ fuel ih =>
    intro s x hx
    match s with
    | [] => simp [stripBlockGo] at hx
    | c :: rest =>
      simp only [stripBlockGo] at hx
      by_cases hp : o.isPrefixOf (c :: rest) ∧ o ≠ []
      · rw [if_pos hp] at hx
        cases hsp : splitAtFirst cl ((c :: rest).drop o.length) with
        | none =>
          rw [hsp] at hx
          rcases List.mem_cons.mp hx with h | h
          · exact Or.inl (by simp [h])
          · rcases ih rest x h with h2 | h2
            · exact Or.inl (List.mem_cons_of_mem c h2)
            · exact Or.inr h2
        | some p =>
          obtain ⟨inside, after⟩ := p
          rw [hsp] at hx
          rcases List.mem_append.mp hx with h | h
          · exact Or.inr (List.eq_of_mem_replicate h)
          · rcases ih after x h with h2 | h2
            · refine Or.inl ?_
              obtain ⟨t, ht⟩ := List.isPrefixOf_iff_prefix.mp hp.1
              have hdrop : (c :: rest).drop o.length = t := by
                rw [← ht, List.drop_left]
              have hsplit : inside ++ cl ++ after = t := by
                have := splitAtFirst_append cl ((c :: rest).drop o.length)
                  inside after hsp
                rw [hdrop] at this; exact this
              have hs : c :: rest = o ++ (inside ++ cl ++ after) := by
                rw [hsplit, ht]
              rw [hs]
              simp only [List.mem_append]
              exact Or.inr (Or.inr h2)
            · exact Or.inr h2
      · rw [if_neg hp] at hx
        rcases List.mem_cons.mp hx with h | h
        · exact Or.inl (by simp [h])
        · rcases ih rest x h with h2 | h2
          · exact Or.inl (List.mem_cons_of_mem c h2)
          · exact Or.inr h2

/-- Every character emitted by pass 2 is a character of the input. -/
theorem pass2Go_mem :
    ∀ fuel atStart s x, x ∈ pass2Go fuel atStart s → x ∈ s := by
  intro fuel
  induction fuel with
  | zero => intro _ s x hx; exact hx
  | succ fuel ih =>
    intro atStart s x hx
    match s with
    | [] => simp [pass2Go] at hx
    | c :: rest =>
      simp only [pass2Go] at hx
      by_cases h1 : atStart = true ∧ isCommentStart (c :: rest) = true
      · rw [if_pos h1] at hx
        have := ih false (takeLine (c :: rest)).2 x hx
        have hmem : x ∈ (takeLine (c :: rest)).1 ++ (takeLine (c :: rest)).2 :=
          List.mem_append.mpr (Or.inr this)
        rw [takeLine_append] at hmem
        exact hmem
      · rw [if_neg h1] at hx
        by_cases h2 : (c = spC ∨ c = tabC) ∧ isCommentStart rest = true
        · rw [if_pos h2] at hx
          rcases List.mem_cons.mp hx with h | h
          · simp [h]
          · have := ih false (takeLine rest).2 x h
            refine List.mem_cons_of_mem c ?_
            have hmem : x ∈ (takeLine rest).1 ++ (takeLine rest).2 :=
              List.mem_append.mpr (Or.inr this)
            rw [takeLine_append] at hmem
            exact hmem
        · rw [if_neg h2] at hx
          by_cases h3 : c = dqC ∨ c = sqC ∨ c = btC
          · rw [if_pos h3] at hx
            cases hsc : scanStr c rest with
            | none =>
              rw [hsc] at hx
              rcases List.mem_cons.mp hx with h | h
              · simp [h]
              · exact List.mem_cons_of_mem c (ih (isLineTerm c) rest x h)
            | some p =>
              obtain ⟨m, r⟩ := p
              rw [hsc] at hx
              rcases List.mem_append.mp hx with h | h
              · rcases List.mem_cons.mp h with h4 | h4
                · simp [h4]
                · refine List.mem_cons_of_mem c ?_
                  have : x ∈ m ++ r := List.mem_append.mpr (Or.inl h4)
                  rw [scanStr_append c rest m r hsc] at this
                  exact this
              · refine List.mem_cons_of_mem c ?_
                have hmem := ih false r x h
                have : x ∈ m ++ r := List.mem_append.mpr (Or.inr hmem)
                rw [scanStr_append c rest m r hsc] at this
                exact this
          · rw [if_neg h3] at hx
            rcases List.mem_cons.mp hx with h | h
            · simp [h]
            · exact List.mem_cons_of_mem c (ih (isLineTerm c) rest x h)

/-- When the input contains no quote characters, pass 2 only deletes
comment text lying strictly inside a line and hence preserves the newline
count. -/
theorem pass2Go_nl :
    ∀ fuel atStart s, noQuote s → nlCount (pass2Go fuel atStart s) = nlCount s := by
  intro fuel
  induction fuel with
  | zero => intro _ s _; rfl
  | succ fuel ih =>
    intro atStart s hq
    match s with
    | [] => rfl
    | c :: rest =>
      have hqrest : noQuote rest := by
        simp only [noQuote, List.all_cons, Bool.and_eq_true] at hq
        exact hq.2
      have hqc : !(c = dqC || c = sqC || c = btC) := by
        simp only [noQuote, List.all_cons, Bool.and_eq_true] at hq
        exact hq.1
      simp only [pass2Go]
      by_cases h1 : atStart = true ∧ isCommentStart (c :: rest) = true
      · rw [if_pos h1]
        have hq2 : noQuote (takeLine (c :: rest)).2 := by
          simp only [noQuote, List.all_eq_true] at hq ⊢
          intro x hx
          refine hq x ?_
          have hmem : x ∈ (takeLine (c :: rest)).1 ++ (takeLine (c :: rest)).2 :=
            List.mem_append.mpr (Or.inr hx)
          rw [takeLine_append] at hmem
          exact hmem
        rw [ih false _ hq2]
        have := takeLine_no_nl (c :: rest)
        have happ := congrArg nlCount (takeLine_append (c :: rest))
        rw [nlCount_append, this] at happ
        omega
      · rw [if_neg h1]
        by_cases h2 : (c = spC ∨ c = tabC) ∧ isCommentStart rest = true
        · rw [if_pos h2]
          have hq2 : noQuote (takeLine rest).2 := by
            simp only [noQuote, List.all_eq_true] at hqrest ⊢
            intro x hx
            refine hqrest x ?_
            have hmem : x ∈ (takeLine rest).1 ++ (takeLine rest).2 :=
              List.mem_append.mpr (Or.inr hx)
            rw [takeLine_append] at hmem
            exact hmem
          have hrec := ih false _ hq2
          have := takeLine_no_nl rest
          have happ := congrArg nlCount (takeLine_append rest)
          rw [nlCount_append, this] at happ
          simp only [nlCount, List.countP_cons] at *
          omega
        · rw [if_neg h2]
          by_cases h3 : c = dqC ∨ c = sqC ∨ c = btC
          · exfalso
            rcases h3 with h | h | h <;> simp [h] at hqc
          · rw [if_neg h3]
            have hrec := ih (isLineTerm c) rest hqrest
            simp only [nlCount, List.countP_cons] at *
            omega

/-- When the quote character does not occur, the string-wiping pass is the
identity. -/
theorem wipeGo_id (q : Char) :
    ∀ fuel s, (∀ x ∈ s, x ≠ q) → wipeGo q fuel s = s := by
  intro fuel
  induction fuel with
  | zero => intro s _; rfl
  | succ fuel ih =>
    intro s hs
    match s with
    | [] => rfl
    | c :: rest =>
      have hc : c ≠ q := hs c (by simp)
      simp only [wipeGo]
      rw [if_neg hc, ih rest (fun x hx => hs x (List.mem_cons_of_mem c hx))]

/-- The three wiped quote characters, for reuse below. -/
theorem noQuote_spec (s : Chars) (h : noQuote s) :
    ∀ x ∈ s, x ≠ dqC ∧ x ≠ sqC ∧ x ≠ btC := by
  intro x hx
  simp only [noQuote, List.all_eq_true] at h
  have := h x hx
  simp only [Bool.not_eq_true', Bool.or_eq_false_iff, decide_eq_false_iff_not] at this
  exact ⟨this.1.1, this.1.2, this.2⟩

/-- For quote-free inputs the whole transform preserves the newline count. -/
theorem stripSC_nl_of_noQuote (s : Chars) (h : noQuote s) :
    nlCount (stripSC s) = nlCount s := by
  set b1 := stripBlock openJsBlock closeJsBlock s with hb1
  set b2 := stripBlock openHtml closeHtml b1 with hb2
  set p := pass2 b2 with hp
  have hq1 : noQuote b1 := by
    simp only [noQuote, List.all_eq_true]
    intro x hx
    rcases stripBlockGo_mem openJsBlock closeJsBlock s.length s x hx with h2 | h2
    · have := noQuote_spec s h x h2
      simp only [Bool.not_eq_true', Bool.or_eq_false_iff, decide_eq_false_iff_not]
      exact ⟨⟨this.1, this.2.1⟩, this.2.2⟩
    · subst h2; decide
  have hq2 : noQuote b2 := by
    simp only [noQuote, List.all_eq_true]
    intro x hx
    rcases stripBlockGo_mem openHtml closeHtml b1.length b1 x hx with h2 | h2
    · have := noQuote_spec b1 hq1 x h2
      simp only [Bool.not_eq_true', Bool.or_eq_false_iff, decide_eq_false_iff_not]
      exact ⟨⟨this.1, this.2.1⟩, this.2.2⟩
    · subst h2; decide
  have hqp : noQuote p := by
    simp only [noQuote, List.all_eq_true]
    intro x hx
    have := pass2Go_mem b2.length true b2 x hx
    have h3 := noQuote_spec b2 hq2 x this
    simp only [Bool.not_eq_true', Bool.or_eq_false_iff, decide_eq_false_iff_not]
    exact ⟨⟨h3.1, h3.2.1⟩, h3.2.2⟩
  have hwd : wipe dqC p = p :=
    wipeGo_id dqC p.length p (fun x hx => (noQuote_spec p hqp x hx).1)
  have hws : wipe sqC p = p :=
    wipeGo_id sqC p.length p (fun x hx => (noQuote_spec p hqp x hx).2.1)
  have hwb : wipe btC p = p :=
    wipeGo_id btC p.length p (fun x hx => (noQuote_spec p hqp x hx).2.2)
  calc nlCount (stripSC s)
      = nlCount p := by
        simp only [stripSC, ← hb1, ← hb2, ← hp, hwd, hws, hwb]
    _ = nlCount b2 := pass2Go_nl b2.length true b2 hq2
    _ = nlCount b1 := stripBlockGo_nl openHtml closeHtml b1.length b1
    _ = nlCount s := stripBlockGo_nl openJsBlock closeJsBlock s.length s

/-! ### Graph data model (`src/shared/types.ts`) -/

inductive NodeKind | module | cls | func
deriving Repr, DecidableEq

/-- `ParseResult.status`: `ok` / `partial` / `nolsp`.  The source's string
value `partial` is spelled `part` here. -/
inductive PStatus | ok | part | nolsp
deriving Repr, DecidableEq

inductive Prov | hierarchy | refs | ast | lsp | heuristicProv
deriving Repr, DecidableEq

inductive EdgeType | imports | call
deriving Repr, DecidableEq

/-- An edge; `src`/`dst` model the source's `from`/`to` fields (keywords in
Lean). -/
structure Edge where
  src : String
  dst : String
  etype : EdgeType
  heuristic : Option Bool
  provenance : Option Prov
  confidence : Option Nat
deriving Repr, DecidableEq

/-- One graph node.  The TypeScript sources use loosely-typed objects; every
field that any node shape carries is present here as an `Option`/default so
any node can be represented. -/
structure Node where
  id : String
  kind : NodeKind
  label : String
  parent : Option String
  fsPath : Option String
  source : Option String
  collapsed : Bool
  docked : Bool
  snippet : Option String
  rangeLine : Option Nat
  rangeCol : Option Nat
  lspStatus : Option PStatus
  heuristicCalls : Option Bool
deriving Repr, DecidableEq

structure Diag where
  file : String
  severity : String
  message : String
deriving Repr, DecidableEq

structure ParseResult where
  nodes : List Node
  edges : List Edge
  status : PStatus
  diagnostics : List Diag
deriving Repr, DecidableEq

inductive ImportMode | relative | all | off
deriving Repr, DecidableEq

/-! ### Id helpers and import-label resolution
(`src/services/parse/utils.ts`, `src/shared/parseUtils.ts`) -/

/-- `normalizePosixPath`: replace every backslash by a slash. -/
def replaceBS (s : Chars) : Chars :=
  s.map (fun c => if c = bsC then slashC else c)

def normalizePosixPath (s : String) : String := String.mk (replaceBS s.data)

def makeModuleId (label : String) : String :=
  "mod:" ++ normalizePosixPath label

def makeClassId (fileLabel className : String) : String :=
  "cls:" ++ normalizePosixPath fileLabel ++ "#" ++ className

def makeFuncId (fileLabel name : String) (line : Nat) : String :=
  "fn:" ++ normalizePosixPath fileLabel ++ "#" ++ name ++ "@" ++ toString line

theorem isPrefixOf_exists_append {p l : Chars} (h : p.isPrefixOf l) :
    ∃ t, p ++ t = l := by
  obtain ⟨t, ht⟩ := List.isPrefixOf_iff_prefix.mp h
  exact ⟨t, ht⟩

/-- `split('/')` of JavaScript on a single-character separator. -/
def splitOnC (sep : Char) : Chars → List Chars
  | [] => [[]]
  | c :: rest =>
    let r := splitOnC sep rest
    if c = sep then [] :: r else (c :: r.headD []) :: r.tail

/-- `/\/+/g → '/'`: collapse every run of slashes to a single slash. -/
def collapseSlashes : Chars → Chars
  | [] => []
  | [c] => [c]
  | c :: d :: rest =>
    if c = slashC ∧ d = slashC then collapseSlashes (d :: rest)
    else c :: collapseSlashes (d :: rest)

/-- `replace(/^\.\//, '')`: strip one leading `./`. -/
def stripDotSlash (s : Chars) : Chars :=
  if [dotC, slashC].isPrefixOf s then s.drop 2 else s

/-- `replace(/^\/+/, '')`: strip all leading slashes. -/
def stripLeadSlashes (s : Chars) : Chars :=
  s.dropWhile (fun c => c = slashC)

/-- The extension alternation of
`\.(tsx?|mjs|cjs|jsx?|py|go|rs|rb|php|java|kt|cs)$` (case-insensitive). -/
def extAlts : List Chars :=
  ["ts", "tsx", "mjs", "cjs", "js", "jsx", "py", "go", "rs", "rb",
   "php", "java", "kt", "cs"].map String.data

/-- Split at the last dot: `extSplit s = some (before, after)` when a dot
occurs, preferring the rightmost one (the only position at which the
end-anchored, dot-free alternation can match). -/
def extSplit : Chars → Option (Chars × Chars)
  | [] => none
  | c :: rest =>
    match extSplit rest with
    | some p => some (c :: p.1, p.2)
    | none => if c = dotC then some ([], rest) else none

/-- `replace(/\.(tsx?|...|cs)$/i, '')`. -/
def stripExt (s : Chars) : Chars :=
  match extSplit s with
  | some p => if (p.2.map Char.toLower) ∈ extAlts then p.1 else s
  | none => s

/-- `spec.startsWith('.') || spec.startsWith('/') || spec.startsWith('..')`. -/
def isRelativeSpec (s : Chars) : Bool :=
  [dotC].isPrefixOf s || [slashC].isPrefixOf s || [dotC, dotC].isPrefixOf s

/-- `fromPosix.split('/').slice(0, -1).join('/')`. -/
def dirOf (fromFile : Chars) : Chars :=
  List.intercalate [slashC] ((splitOnC slashC (replaceBS fromFile)).dropLast)

/-- The normalization chain applied to `fromDir + '/' + spec`. -/
def normJoin (fromFile spec : Chars) : Chars :=
  stripLeadSlashes (stripDotSlash (collapseSlashes
    (replaceBS (dirOf fromFile ++ [slashC] ++ spec))))

/-- `resolveImportLabelByText` from `src/shared/parseUtils.ts`: bare
specifiers are returned verbatim; relative ones are joined to the importing
file's directory, slash-normalized, and extension-stripped. -/
def resolveImportLabelC (fromFile spec : Chars) : Chars :=
  if isRelativeSpec spec then stripExt (normJoin fromFile spec) else spec

def resolveImportLabelByText (fromFile spec : String) : String :=
  String.mk (resolveImportLabelC fromFile.data spec.data)

/-! ### Lexical import-target extraction (`staticImportArtifacts`,
`src/services/parse/index.ts`) -/

def isQuoteC (c : Char) : Bool := c = dqC || c = sqC

/-- Case-insensitive literal prefix test (`i` flag). -/
def lcStarts (pat : Chars) (s : Chars) : Bool :=
  decide ((s.take pat.length).map Char.toLower = pat)

/-- Case-insensitive suffix test (`.toLowerCase().endsWith(...)`). -/
def lcEnds (pat : Chars) (s : Chars) : Bool :=
  pat.isSuffixOf (s.map Char.toLower)

def fromLit : Chars := "from".data
def importLit : Chars := "import".data
def usingLit : Chars := "using".data
def useLit : Chars := "use".data
def requireLit : Chars := "require(".data

/-- Attempt `^\s*import\s+[^QQ]*?[QQ]([^QQ]+)[QQ]` at a line-start
position: skip whitespace (newlines included), require `import`
(case-insensitive), require one whitespace character, jump to the first
quote, then a non-empty run of non-quote characters closed by a quote.
Returns the capture and the rest after the match. -/
def tryJsImport (s : Chars) : Option (Chars × Chars) :=
  let s1 := s.dropWhile isWs
  if lcStarts importLit s1 then
    match s1.drop importLit.length with
    | [] => none
    | w :: s2tail =>
      if isWs w then
        match splitAtFirstP isQuoteC s2tail with
        | none => none
        | some q => jsCapture q.2
      else none
  else none
where
  /-- First position satisfying the predicate: `(before, after-the-char)`. -/
  splitAtFirstP (p : Char → Bool) : Chars → Option (Chars × Chars)
    | [] => none
    | c :: rest =>
      if p c then some ([], rest)
      else (splitAtFirstP p rest).map (fun q => (c :: q.1, q.2))
  /-- `([^QQ]+)[QQ]` after the opening quote. -/
  jsCapture (afterQ1 : Chars) : Option (Chars × Chars) :=
    let cap := afterQ1.takeWhile (fun c => !(isQuoteC c))
    if cap = [] then none
    else
      match afterQ1.drop cap.length with
      | _ :: after2 => some (cap, after2)
      | [] => none

/-- All captures of the JS import regex (flags `igm`): scan every position,
a match may start only at a line start. -/
def jsImportGo : Nat → Bool → Chars → List Chars
  | 0, _, _ => []
  | _ + 1, _, [] => []
  | fuel + 1, atStart, c :: rest =>
    if atStart then
      match tryJsImport (c :: rest) with
      | some p => p.1 :: jsImportGo fuel false p.2
      | none => jsImportGo fuel (isLineTerm c) rest
    else jsImportGo fuel (isLineTerm c) rest

def jsImportMatches (s : Chars) : List Chars := jsImportGo s.length true s

/-- Attempt `require\(\s*[QQ]([^QQ]+)[QQ]\s*\)` at the current position
(no anchors, case-sensitive). -/
def tryRequire (s : Chars) : Option (Chars × Chars) :=
  if requireLit.isPrefixOf s then
    match (s.drop requireLit.length).dropWhile isWs with
    | q1 :: afterQ1 =>
      if isQuoteC q1 then
        let cap := afterQ1.takeWhile (fun c => !(isQuoteC c))
        if cap = [] then none
        else
          match afterQ1.drop cap.length with
          | _ :: after2 =>
            match after2.dropWhile isWs with
            | rp :: after4 => if rp = rparC then some (cap, after4) else none
            | [] => none
          | [] => none
      else none
    | [] => none
  else none

def requireGo : Nat → Chars → List Chars
  | 0, _ => []
  | _ + 1, [] => []
  | fuel + 1, c :: rest =>
    match tryRequire (c :: rest) with
    | some p => p.1 :: requireGo fuel p.2
    | none => requireGo fuel rest

def requireMatches (s : Chars) : List Chars := requireGo s.length s

/-- `[A-Za-z_][\w.]*` starting at the given text: identifier capture used by
the Python import regexes. -/
def pyIdent : Chars → Option (Chars × Chars)
  | [] => none
  | c0 :: s4 =>
    if isAlphaU c0 then
      let identRest := s4.takeWhile (fun c => isWordC c || c = dotC)
      some (c0 :: identRest, s4.drop identRest.length)
    else none

/-- Attempt `^\s*from\s+([A-Za-z_][\w.]*)\s+import\b` at a line start. -/
def tryPyFrom (s : Chars) : Option (Chars × Chars) :=
  let s1 := s.dropWhile isWs
  if lcStarts fromLit s1 then
    match s1.drop fromLit.length with
    | [] => none
    | w :: _ =>
      if isWs w then
        match pyIdent ((s1.drop fromLit.length).dropWhile isWs) with
        | none => none
        | some cap =>
          match cap.2 with
          | [] => none
          | w2 :: _ =>
            if isWs w2 then
              let s6 := cap.2.dropWhile isWs
              if lcStarts importLit s6 then
                match s6.drop importLit.length with
                | [] => some (cap.1, [])
                | c :: r2 => if isWordC c then none else some (cap.1, c :: r2)
              else none
            else none
      else none
  else none

/-- Attempt `^\s*import\s+([A-Za-z_][\w.]*)` at a line start. -/
def tryPyImport (s : Chars) : Option (Chars × Chars) :=
  let s1 := s.dropWhile isWs
  if lcStarts importLit s1 then
    match s1.drop importLit.length with
    | [] => none
    | w :: _ =>
      if isWs w then pyIdent ((s1.drop importLit.length).dropWhile isWs)
      else none
  else none

/-- Attempt `^\s*(?:import|using)\s+([A-Za-z0-9_.]+)` (Java / CSharp, mode
`all`). -/
def tryJavaImport (s : Chars) : Option (Chars × Chars) :=
  let s1 := s.dropWhile isWs
  let kw : Option Nat :=
    if lcStarts importLit s1 then some importLit.length
    else if lcStarts usingLit s1 then some usingLit.length
    else none
  match kw with
  | none => none
  | some k =>
    match s1.drop k with
    | [] => none
    | w :: _ =>
      if isWs w then
        let s3 := (s1.drop k).dropWhile isWs
        let cap := s3.takeWhile (fun c => isWordC c || c = dotC)
        if cap = [] then none else some (cap, s3.drop cap.length)
      else none

/-- Attempt `^\s*use\s+([A-Za-z0-9_:]+)` (Rust, mode `all`). -/
def tryRustUse (s : Chars) : Option (Chars × Chars) :=
  let s1 := s.dropWhile isWs
  if lcStarts useLit s1 then
    match s1.drop useLit.length with
    | [] => none
    | w :: _ =>
      if isWs w then
        let s3 := (s1.drop useLit.length).dropWhile isWs
        let cap := s3.takeWhile (fun c => isWordC c || c = colonC)
        if cap = [] then none else some (cap, s3.drop cap.length)
      else none
  else none

/-- Generic driver for the line-anchored matchers above (flags `gm`). -/
def anchoredGo (try_ : Chars → Option (Chars × Chars)) :
    Nat → Bool → Chars → List Chars
  | 0, _, _ => []
  | _ + 1, _, [] => []
  | fuel + 1, atStart, c :: rest =>
    if atStart then
      match try_ (c :: rest) with
      | some p => p.1 :: anchoredGo try_ fuel false p.2
      | none => anchoredGo try_ fuel (isLineTerm c) rest
    else anchoredGo try_ fuel (isLineTerm c) rest

def anchoredMatches (try_ : Chars → Option (Chars × Chars)) (s : Chars) :
    List Chars := anchoredGo try_ s.length true s

/-- `String(a).replace(/::/g, '/')`. -/
def replaceDblColon : Chars → Chars
  | [] => []
  | [c] => [c]
  | a :: b :: rest =>
    if a = colonC ∧ b = colonC then slashC :: replaceDblColon rest
    else a :: replaceDblColon (b :: rest)

/-- JavaScript `Set` accumulation: insertion-ordered, deduplicated. -/
def addTarget (acc : List Chars) (t : Chars) : List Chars :=
  if t ∈ acc then acc else acc ++ [t]

def addTargets (acc : List Chars) (ts : List Chars) : List Chars :=
  ts.foldl addTarget acc

/-- The target set collected by `staticImportArtifacts` from the cleaned
text, in regex order. -/
def extractTargets (isPy : Bool) (mode : ImportMode) (cleaned : Chars) :
    List Chars :=
  if isPy then
    addTargets (addTargets [] (anchoredMatches tryPyFrom cleaned))
      (anchoredMatches tryPyImport cleaned)
  else
    let base := addTargets (addTargets [] (jsImportMatches cleaned))
      (requireMatches cleaned)
    if mode = ImportMode.all then
      addTargets (addTargets base (anchoredMatches tryJavaImport cleaned))
        ((anchoredMatches tryRustUse cleaned).map replaceDblColon)
    else base

/-- `/^(\.?\.?[\/\x5c])/.test(label0)`. -/
def relTest : Chars → Bool
  | [] => false
  | c :: rest =>
    if c = slashC || c = bsC then true
    else if c = dotC then
      match rest with
      | [] => false
      | d :: rest2 =>
        if d = slashC || d = bsC then true
        else if d = dotC then
          match rest2 with
          | [] => false
          | e :: _ => e = slashC || e = bsC
        else false
    else false

structure ImportArtifacts where
  edges : List Edge
  ghosts : List Node
deriving Repr, DecidableEq

def ghostNode (toId label : String) : Node :=
  { id := toId, kind := NodeKind.module, label := label, parent := none,
    fsPath := none, source := none, collapsed := true, docked := false,
    snippet := none, rangeLine := none, rangeCol := none, lspStatus := none,
    heuristicCalls := some false }

/-- `resolveImportLabelByText(fromFsPath || '', raw) || raw`
(JS `||`: the empty string is falsy). -/
def importLabel0 (fromFsPath raw : Chars) : Chars :=
  let r := resolveImportLabelC fromFsPath raw
  if r = [] then raw else r

/-- `label0.replace(/\x5c/g,'/').replace(/^\.\//,'').replace(/^\/+/,'')`. -/
def importLabel (fromFsPath raw : Chars) : Chars :=
  stripLeadSlashes (stripDotSlash (replaceBS (importLabel0 fromFsPath raw)))

/-- The module id assigned to one import target. -/
def importTargetId (fromFsPath raw : String) : String :=
  makeModuleId (String.mk (importLabel fromFsPath.data raw.data))

/-- The per-target loop of `staticImportArtifacts`: resolve the label
(`|| raw` models JS falsiness of the empty string), apply the
relative-mode filter, emit an edge with provenance `lsp`, and add a ghost
module node deduplicated by id. -/
def buildArtifacts (moduleId : String) (fromFsPath : Chars)
    (mode : ImportMode) :
    List Chars → List Edge → List Node → ImportArtifacts
  | [], edges, ghosts => ⟨edges, ghosts⟩
  | raw :: rest, edges, ghosts =>
    let label0 := importLabel0 fromFsPath raw
    let label := importLabel fromFsPath raw
    if mode = ImportMode.relative ∧ ¬ relTest label0 then
      buildArtifacts moduleId fromFsPath mode rest edges ghosts
    else
      let toId := makeModuleId (String.mk label)
      let edge : Edge :=
        { src := moduleId, dst := toId, etype := EdgeType.imports,
          heuristic := none, provenance := some Prov.lsp,
          confidence := some 1 }
      let ghosts2 :=
        if ghosts.any (fun n => n.id = toId) then ghosts
        else ghosts ++ [ghostNode toId (String.mk label)]
      buildArtifacts moduleId fromFsPath mode rest (edges ++ [edge]) ghosts2

/-- `staticImportArtifacts(moduleId, text, fromFsPath)` with the
`depviz.importsMode` configuration value passed explicitly. -/
def staticImportArtifacts (moduleId : String) (text : String)
    (fromFsPath : String) (mode : ImportMode) : ImportArtifacts :=
  if mode = ImportMode.off then ⟨[], []⟩
  else
    let cleaned := stripSC text.data
    let isPy := lcEnds ".py".data fromFsPath.data
    let targets := extractTargets isPy mode cleaned
    buildArtifacts moduleId fromFsPath.data mode targets [] []

/-! ### The tiered parse orchestrator (`src/services/parse/index.ts`) -/

/-- `moduleOnlyNode(uri, src)`. -/
def moduleOnlyNode (relLabel fsPath src : String) : Node :=
  { id := makeModuleId relLabel, kind := NodeKind.module, label := relLabel,
    parent := none, fsPath := some fsPath, source := some src,
    collapsed := true, docked := false, snippet := none, rangeLine := none,
    rangeCol := none, lspStatus := none, heuristicCalls := none }

/-- The per-node annotation loop: stamp `lspStatus` on module nodes that
lack it. -/
def annotateModule (status : PStatus) (n : Node) : Node :=
  if n.kind = NodeKind.module ∧ n.lspStatus = none then
    { n with lspStatus := some status }
  else n

/-- `parseFile(uri, text, timeoutMs)`: the success of `parseWithLsp` under
the deadline is modelled by `attempt = Except.ok res`; a timeout or thrown
provider error by `Except.error msg` (the message of the thrown error). -/
def parseFile (relLabel fsPath text : String) (mode : ImportMode)
    (attempt : Except String ParseResult) : ParseResult :=
  match attempt with
  | Except.ok res =>
    let nodes1 :=
      if res.nodes.any (fun n => n.kind = NodeKind.module) then res.nodes
      else moduleOnlyNode relLabel fsPath text :: res.nodes
    let modId :=
      ((nodes1.find? (fun n => n.kind = NodeKind.module)).map Node.id).getD ""
    let arts := staticImportArtifacts modId text fsPath mode
    { nodes := nodes1.map (annotateModule res.status) ++ arts.ghosts,
      edges := res.edges ++ arts.edges,
      status := res.status, diagnostics := res.diagnostics }
  | Except.error e =>
    let m := moduleOnlyNode relLabel fsPath text
    let arts := staticImportArtifacts m.id text fsPath mode
    let modWithStatus :=
      { m with lspStatus := some PStatus.nolsp, heuristicCalls := some false }
    { nodes := modWithStatus :: arts.ghosts, edges := arts.edges,
      status := PStatus.nolsp,
      diagnostics := [{ file := fsPath, severity := "warn",
                        message := "LSP unavailable or slow: " ++ e }] }

/-- Ghost nodes produced by the import loop are module placeholders:
collapsed, without source text. -/
def isGhostModule (n : Node) : Bool :=
  n.kind = NodeKind.module && n.collapsed && n.source = none &&
    n.heuristicCalls = some false && n.lspStatus = none

theorem buildArtifacts_ghosts_inv (moduleId : String) (f : Chars)
    (mode : ImportMode) :
    ∀ ts edges ghosts, ghosts.all isGhostModule →
      (buildArtifacts moduleId f mode ts edges ghosts).ghosts.all isGhostModule := by
  intro ts
  induction ts with
  | nil => intro edges ghosts h; exact h
  | cons raw rest ih =>
    intro edges ghosts h
    simp only [buildArtifacts]
    by_cases hskip : mode = ImportMode.relative ∧ ¬ relTest (importLabel0 f raw)
    · rw [if_pos hskip]; exact ih _ _ h
    · rw [if_neg hskip]
      refine ih _ _ ?_
      by_cases hdup :
          ghosts.any (fun n =>
            n.id = makeModuleId (String.mk (importLabel f raw)))
      · rw [if_pos hdup]; exact h
      · rw [if_neg hdup]
        simp only [List.all_append, h, Bool.true_and, List.all_cons,
          List.all_nil, Bool.and_true]
        rfl

theorem staticImportArtifacts_ghosts (moduleId text fromFsPath : String)
    (mode : ImportMode) :
    (staticImportArtifacts moduleId text fromFsPath mode).ghosts.all
      isGhostModule := by
  unfold staticImportArtifacts
  by_cases hoff : mode = ImportMode.off
  · rw [if_pos hoff]; rfl
  · rw [if_neg hoff]
    exact buildArtifacts_ghosts_inv _ _ _ _ _ _ rfl

/-- C1.  When the provider attempt times out or throws, `parseFile` returns
(never throws): `status = nolsp`, one `warn` diagnostic, the node set is
exactly one module node carrying `lspStatus = nolsp` and
`heuristicCalls = false` followed by the ghost module nodes of the
lexical import scan, and the edges are exactly the lexical import
edges. -/
theorem parseFile_nolsp_fallback (relLabel fsPath text : String)
    (mode : ImportMode) (e : String) :
    (parseFile relLabel fsPath text mode (Except.error e)).status
        = PStatus.nolsp ∧
    (parseFile relLabel fsPath text mode (Except.error e)).diagnostics.map
        Diag.severity = ["warn"] ∧
    (parseFile relLabel fsPath text mode (Except.error e)).edges
        = (staticImportArtifacts (makeModuleId relLabel) text fsPath mode).edges ∧
    (parseFile relLabel fsPath text mode (Except.error e)).nodes
        = { moduleOnlyNode relLabel fsPath text with
              lspStatus := some PStatus.nolsp,
              heuristicCalls := some false } ::
          (staticImportArtifacts (makeModuleId relLabel) text fsPath mode).ghosts ∧
    ({ moduleOnlyNode relLabel fsPath text with
        lspStatus := some PStatus.nolsp,
        heuristicCalls := some false } : Node).kind = NodeKind.module ∧
    ({ moduleOnlyNode relLabel fsPath text with
        lspStatus := some PStatus.nolsp,
        heuristicCalls := some false } : Node).id = makeModuleId relLabel ∧
    (staticImportArtifacts (makeModuleId relLabel) text fsPath mode).ghosts.all
      isGhostModule := by
  refine ⟨rfl, rfl, rfl, rfl, rfl, rfl, ?_⟩
  exact staticImportArtifacts_ghosts _ _ _ _

/-- C6.  The lexical import pass strips string literals (wiping their
contents) before matching quoted import specifiers, so a TypeScript file
importing `./b` yields no import edge and no ghost node — although the
specifier-collecting regexes do find `./b` on the raw (unstripped) text. -/
theorem staticImportArtifacts_ts_import_empty :
    staticImportArtifacts "mod:a" "import x from './b';\n" "a.ts"
        ImportMode.relative = ⟨[], []⟩ ∧
    extractTargets false ImportMode.relative "import x from './b';\n".data
        = ["./b".data] ∧
    stripSC "import x from './b';\n".data = "import x from '';\n".data := by
  refine ⟨by rfl, by rfl, by rfl⟩

/-! ### Claim C7: import-target resolution under different specifier
spellings -/

def dotSlashLit : Chars := [dotC, slashC]
def tsLit : Chars := [dotC, Char.ofNat 116, Char.ofNat 115]

theorem replaceBS_append (a b : Chars) :
    replaceBS (a ++ b) = replaceBS a ++ replaceBS b := by
  simp [replaceBS]

theorem collapseSlashes_noSlash (t : Chars) (h : ∀ c ∈ t, c ≠ slashC) :
    collapseSlashes t = t := by
  induction t with
  | nil => rfl
  | cons c rest ih =>
    match rest with
    | [] => rfl
    | d :: rest' =>
      have hc : c ≠ slashC := h c (by simp)
      have hrest : ∀ x ∈ d :: rest', x ≠ slashC := by
        intro x hx; exact h x (List.mem_cons_of_mem c hx)
      simp only [collapseSlashes]
      rw [if_neg (by exact fun hcd => hc hcd.1), ih hrest]

theorem collapseSlashes_append_noSlash (t : Chars)
    (ht : ∀ c ∈ t, c ≠ slashC) :
    ∀ x, collapseSlashes (x ++ t) = collapseSlashes x ++ t := by
  intro x
  induction x with
  | nil => simpa using collapseSlashes_noSlash t ht
  | cons c rest ih =>
    match rest with
    | [] =>
      simp only [List.cons_append, List.nil_append]
      match t with
      | [] => simp [collapseSlashes]
      | t0 :: t1 =>
        have h0 : t0 ≠ slashC := ht t0 (by simp)
        simp only [collapseSlashes]
        rw [if_neg (by exact fun hcd => h0 hcd.2)]
        rw [collapseSlashes_noSlash (t0 :: t1) ht]
        simp
    | d :: rest' =>
      simp only [List.cons_append] at ih ⊢
      by_cases hcd : c = slashC ∧ d = slashC
      · simp only [collapseSlashes, if_pos hcd]
        exact ih
      · simp only [collapseSlashes, if_neg hcd]
        rw [ih]
        simp

theorem stripDotSlash_append_ts (y : Chars) :
    stripDotSlash (y ++ tsLit) = stripDotSlash y ++ tsLit := by
  match y with
  | [] => rfl
  | [a] =>
    have hin : ([slashC] : Chars).isPrefixOf tsLit = false := by decide
    have h1 : ([dotC, slashC] : Chars).isPrefixOf ([a] ++ tsLit) = false := by
      show (dotC == a && ([slashC] : Chars).isPrefixOf tsLit) = false
      rw [hin, Bool.and_false]
    have h2 : ([dotC, slashC] : Chars).isPrefixOf ([a] : Chars) = false := by
      show (dotC == a && false) = false
      rw [Bool.and_false]
    unfold stripDotSlash
    rw [if_neg (by rw [h1]; exact Bool.false_ne_true),
      if_neg (by rw [h2]; exact Bool.false_ne_true)]
  | a :: b :: r =>
    simp only [stripDotSlash, List.cons_append]
    by_cases hab : [dotC, slashC].isPrefixOf (a :: b :: r)
    · have : [dotC, slashC].isPrefixOf (a :: b :: (r ++ tsLit)) := by
        simp only [List.isPrefixOf] at hab ⊢
        simp_all
      rw [if_pos this, if_pos hab]
      simp
    · have : ¬ [dotC, slashC].isPrefixOf (a :: b :: (r ++ tsLit)) := by
        simp only [List.isPrefixOf] at hab ⊢
        simp_all
      rw [if_neg this, if_neg hab]
      simp

theorem stripLeadSlashes_append_ts (z : Chars) :
    stripLeadSlashes (z ++ tsLit) = stripLeadSlashes z ++ tsLit := by
  induction z with
  | nil => rfl
  | cons c rest ih =>
    by_cases hc : c = slashC
    · subst hc
      simp only [stripLeadSlashes, List.cons_append, List.dropWhile_cons] at ih ⊢
      simpa using ih
    · simp only [stripLeadSlashes, List.cons_append, List.dropWhile_cons]
      simp [hc]

theorem normJoin_append_ts (f spec : Chars) :
    normJoin f (spec ++ tsLit) = normJoin f spec ++ tsLit := by
  unfold normJoin
  rw [show dirOf f ++ [slashC] ++ (spec ++ tsLit)
      = (dirOf f ++ [slashC] ++ spec) ++ tsLit by simp]
  rw [replaceBS_append]
  rw [show replaceBS tsLit = tsLit from by decide]
  rw [collapseSlashes_append_noSlash tsLit (by decide)]
  rw [stripDotSlash_append_ts, stripLeadSlashes_append_ts]

theorem extSplit_append_ts (X : Chars) :
    extSplit (X ++ tsLit) = some (X, [Char.ofNat 116, Char.ofNat 115]) := by
  induction X with
  | nil => rfl
  | cons c rest ih =>
    simp only [List.cons_append, extSplit, List.append_eq, ih]

theorem stripExt_append_ts (X : Chars) : stripExt (X ++ tsLit) = X := by
  unfold stripExt
  rw [extSplit_append_ts]
  simp only
  rw [if_pos]
  decide

/-- C7 (counterexample).  `./a/b.ts` and `a/b.ts`, imported from the same
file, do NOT resolve to the same target module id: the bare spelling is
treated as a non-relative specifier and returned verbatim, extension
included (and in `relative` mode it is filtered out entirely). -/
theorem importTargetId_bare_spec_differs :
    importTargetId "src/main.ts" "./a/b.ts" = "mod:src/./a/b" ∧
    importTargetId "src/main.ts" "a/b.ts" = "mod:a/b.ts" ∧
    importTargetId "src/main.ts" "./a/b.ts"
        ≠ importTargetId "src/main.ts" "a/b.ts" ∧
    resolveImportLabelByText "src/main.ts" "a/b.ts" = "a/b.ts" ∧
    relTest "a/b.ts".data = false := by
  refine ⟨by rfl, by rfl, by decide, by rfl, by rfl⟩

/-- C7 (amended).  For relative spellings the resolution is invariant under
the extension normalization: `./p.ts` and `./p` written from the same file
are assigned the same target module id, provided the normalized joined path
of `./p` does not itself end in a strippable extension (and is non-empty,
so that the JS `|| raw` fallback is not taken). -/
theorem importTargetId_ext_invariant (f p : String)
    (h1 : stripExt (normJoin f.data (dotSlashLit ++ p.data))
        = normJoin f.data (dotSlashLit ++ p.data))
    (h2 : normJoin f.data (dotSlashLit ++ p.data) ≠ []) :
    importTargetId f ("./" ++ p ++ ".ts") = importTargetId f ("./" ++ p) := by
  unfold importTargetId importLabel importLabel0
  have hdata1 : ("./" ++ p ++ ".ts").data = (dotSlashLit ++ p.data) ++ tsLit := by
    show ("./" ++ p ++ ".ts").data = dotSlashLit ++ p.data ++ tsLit
    rw [String.data_append, String.data_append]
    rfl
  have hdata2 : ("./" ++ p).data = dotSlashLit ++ p.data := by
    rw [String.data_append]; rfl
  rw [hdata1, hdata2]
  have hrel1 : isRelativeSpec ((dotSlashLit ++ p.data) ++ tsLit) = true := by
    simp [isRelativeSpec, dotSlashLit, List.isPrefixOf]
  have hrel2 : isRelativeSpec (dotSlashLit ++ p.data) = true := by
    simp [isRelativeSpec, dotSlashLit, List.isPrefixOf]
  have hres1 : resolveImportLabelC f.data ((dotSlashLit ++ p.data) ++ tsLit)
      = normJoin f.data (dotSlashLit ++ p.data) := by
    unfold resolveImportLabelC
    rw [if_pos hrel1, normJoin_append_ts, stripExt_append_ts]
  have hres2 : resolveImportLabelC f.data (dotSlashLit ++ p.data)
      = normJoin f.data (dotSlashLit ++ p.data) := by
    unfold resolveImportLabelC
    rw [if_pos hrel2, h1]
  rw [hres1, hres2, if_neg h2, if_neg h2]

/-- Witness for `importTargetId_ext_invariant` at `src/main.ts`, `a/b`. -/
theorem importTargetId_ext_invariant_witness :
    importTargetId "src/main.ts" "./a/b.ts" = importTargetId "src/main.ts" "./a/b" :=
  importTargetId_ext_invariant "src/main.ts" "a/b" (by decide) (by decide)

/-- C9 (counterexample).  The strip transform does not always preserve the
line count: a template literal spanning two lines collapses to an empty
pair of backticks, deleting its interior newline. -/
theorem stripStringsAndComments_drops_newline :
    stripStringsAndComments "`a\nb`" = "``" ∧
    nlCount ("`a\nb`").data = 1 ∧
    nlCount (stripStringsAndComments "`a\nb`").data = 0 ∧
    nlCount (stripStringsAndComments "`a\nb`").data ≠ nlCount ("`a\nb`").data := by
  refine ⟨by rfl, by rfl, by rfl, by decide⟩

/-- C9 (amended).  `stripStringsAndComments` is a pure text-to-text
transform; for every input containing no double quote, single quote or
backtick character, the output has exactly the same number of newline
characters as the input.  (In general the count can only shrink: wiping a
quoted or template literal that spans lines removes its interior newlines,
as the counterexample shows.) -/
theorem stripStringsAndComments_preserves_newlines (s : String)
    (h : noQuote s.data) :
    nlCount (stripStringsAndComments s).data = nlCount s.data :=
  stripSC_nl_of_noQuote s.data h

/-- Witness for `stripStringsAndComments_preserves_newlines`. -/
theorem stripStringsAndComments_preserves_newlines_witness :
    noQuote ("x = 1 // c\n/* b\n */ y # z\n").data = true ∧
    nlCount (stripStringsAndComments "x = 1 // c\n/* b\n */ y # z\n").data
      = nlCount ("x = 1 // c\n/* b\n */ y # z\n").data :=
  ⟨by decide, stripStringsAndComments_preserves_newlines
    "x = 1 // c\n/* b\n */ y # z\n" (by decide)⟩

/-! ### The symbol-to-graph mapper (`src/services/parse/lspParser.ts`)

`parseWithLsp` receives the provider's symbol response already pushed
through `asDocumentSymbols` (the wire-shape normalizer): `DS` is the
normalized tree.  A flat `SymbolInformation` response appears as a list of
childless `DS` values with `containerName` hints and
`selectionRange = range`.  The call-hierarchy provider is the function
`hier : line → col → Option (List OutCall)`; `none` models "prepare failed
or returned nothing" (skipped), `some l` the outgoing-calls answer. -/

structure Pos where
  line : Nat
  character : Nat
deriving Repr, DecidableEq

structure Rng where
  startP : Pos
  endP : Pos
deriving Repr, DecidableEq

inductive SymKind | classSym | functionSym | methodSym | otherSym
deriving Repr, DecidableEq

inductive DS where
  | mk (name : String) (kind : SymKind) (rng : Rng) (selRng : Rng)
       (containerName : Option String) (children : List DS)

def DS.name : DS → String
  | DS.mk n _ _ _ _ _ => n

/-- A collected function (`type Fn` in the source): `startL`/`endL` model
`start`/`end`. -/
structure Fn where
  id : String
  name : String
  startL : Nat
  endL : Nat
  col : Nat
  parent : String
deriving Repr, DecidableEq

/-- `text.split(/\r?\n/)`: LF or CRLF separate lines; a lone CR does not. -/
def splitRN : Chars → List Chars
  | [] => [[]]
  | [c] => if c = nlC then [[], []] else [[c]]
  | c :: d :: rest =>
    if c = nlC then [] :: splitRN (d :: rest)
    else if c = crC ∧ d = nlC then [] :: splitRN rest
    else (c :: (splitRN (d :: rest)).headD []) :: (splitRN (d :: rest)).tail

/-- `snippetFrom(lines, start, maxLines)` from `src/shared/text.ts`. -/
def snippetFrom (lines : List Chars) (start maxLines : Nat) : Chars :=
  let s := min start (lines.length - 1)
  let e := min lines.length (s + max 1 maxLines)
  List.intercalate [nlC] ((lines.drop s).take (e - s))

/-- `document.getText(range)` reconstructed from the split lines (EOLs
rendered as LF), then `.split(/\r?\n/).slice(0, 20).join('\n')` — the class
snippet. -/
def getTextRange (lines : List Chars) (r : Rng) : Chars :=
  if r.startP.line = r.endP.line then
    (((lines.getD r.startP.line []).drop r.startP.character).take
      (r.endP.character - r.startP.character))
  else
    let firstL := (lines.getD r.startP.line []).drop r.startP.character
    let midL := (lines.drop (r.startP.line + 1)).take
      (r.endP.line - r.startP.line - 1)
    let lastL := (lines.getD r.endP.line []).take r.endP.character
    List.intercalate [nlC] ([firstL] ++ midL ++ [lastL])

def classSnippet (lines : List Chars) (r : Rng) : Chars :=
  List.intercalate [nlC] ((splitRN (getTextRange lines r)).take 20)

structure VisitSt where
  classNodes : List Node
  classIds : List (String × String)
  functions : List Fn
deriving Repr

def classNodeOf (fileLabel fsPath : String) (moduleId : String)
    (lines : List Chars) (name : String) (rng selRng : Rng) : Node :=
  { id := makeClassId fileLabel name, kind := NodeKind.cls, label := name,
    parent := some moduleId, fsPath := some fsPath, source := none,
    collapsed := false, docked := true,
    snippet := some (String.mk (classSnippet lines rng)),
    rangeLine := some selRng.startP.line,
    rangeCol := some selRng.startP.character,
    lspStatus := none, heuristicCalls := none }

/-- `addFunction(name, selection, full, parent)`. -/
def addFunction (fileLabel : String) (st : VisitSt) (name : String)
    (sel full : Rng) (parent : String) : VisitSt :=
  { st with functions := st.functions ++
      [{ id := makeFuncId fileLabel name sel.startP.line, name := name,
         startL := sel.startP.line, endL := full.endP.line,
         col := sel.startP.character, parent := parent }] }

/-- JS truthiness of the `clsName ? ... : ...` tests: an empty string (an
empty `containerName` hint) is falsy. -/
def truthyName : Option String → Bool
  | none => false
  | some s => s ≠ ""

mutual

/-- The `visit` walker of `parseWithLsp`.  The module node (always pushed
first by the source and never revisited) is kept out of the state and
re-attached at the front by `parseWithLsp`; the state carries the class
nodes, the class-id map and the function list in push order. -/
def visitDS (fileLabel fsPath moduleId : String) (lines : List Chars)
    (st : VisitSt) (parentClassName : Option String) : DS → VisitSt
  | DS.mk name kind rng selRng containerName children =>
    if kind = SymKind.classSym then
      let st1 :=
        if (st.classIds.lookup name).isSome then st
        else
          { st with
            classIds := st.classIds ++ [(name, makeClassId fileLabel name)],
            classNodes := st.classNodes ++
              [classNodeOf fileLabel fsPath moduleId lines name rng selRng] }
      visitListDS fileLabel fsPath moduleId lines st1 (some name) children
    else
      let st1 :=
        if kind = SymKind.functionSym ∨ kind = SymKind.methodSym then
          let clsName := match parentClassName with
            | some s => some s
            | none => containerName
          let parentId :=
            if truthyName clsName then
              ((st.classIds.lookup (clsName.getD "")).getD moduleId)
            else moduleId
          let fname :=
            if truthyName clsName then clsName.getD "" ++ "." ++ name
            else name
          addFunction fileLabel st fname selRng rng parentId
        else st
      visitListDS fileLabel fsPath moduleId lines st1 parentClassName children

def visitListDS (fileLabel fsPath moduleId : String) (lines : List Chars)
    (st : VisitSt) (parentClassName : Option String) : List DS → VisitSt
  | [] => st
  | s :: rest =>
    visitListDS fileLabel fsPath moduleId lines
      (visitDS fileLabel fsPath moduleId lines st parentClassName s)
      parentClassName rest

end

/-! Python heuristic fallback (`harvestPythonHeuristics`). -/

def classLit : Chars := "class".data
def defLit : Chars := "def".data

/-- `[A-Za-z_]\w*` (no dot). -/
def pyIdentNoDot : Chars → Option (Chars × Chars)
  | [] => none
  | c :: r =>
    if isAlphaU c then
      let t := r.takeWhile isWordC
      some (c :: t, r.drop t.length)
    else none

/-- Attempt `^\s*class\s+([A-Za-z_]\w*)\s*[:\(]` (case-sensitive). -/
def tryPyClass (s : Chars) : Option (Chars × Chars) :=
  let s1 := s.dropWhile isWs
  if classLit.isPrefixOf s1 then
    match s1.drop classLit.length with
    | [] => none
    | w :: _ =>
      if isWs w then
        match pyIdentNoDot ((s1.drop classLit.length).dropWhile isWs) with
        | none => none
        | some cap =>
          match cap.2.dropWhile isWs with
          | c :: rr => if c = colonC ∨ c = lparC then some (cap.1, rr) else none
          | [] => none
      else none
  else none

/-- Attempt `^\s*def\s+([A-Za-z_]\w*)\s*\(` (case-sensitive). -/
def tryPyDef (s : Chars) : Option (Chars × Chars) :=
  let s1 := s.dropWhile isWs
  if defLit.isPrefixOf s1 then
    match s1.drop defLit.length with
    | [] => none
    | w :: _ =>
      if isWs w then
        match pyIdentNoDot ((s1.drop defLit.length).dropWhile isWs) with
        | none => none
        | some cap =>
          match cap.2.dropWhile isWs with
          | c :: rr => if c = lparC then some (cap.1, rr) else none
          | [] => none
      else none
  else none

/-- Anchored driver that also reports the line of each match start
(`text.slice(0, m.index).split(/\r?\n/).length - 1` = the number of LFs
before the match). -/
def anchoredPosGo (try_ : Chars → Option (Chars × Chars)) :
    Nat → Bool → Nat → Chars → List (Chars × Nat)
  | 0, _, _, _ => []
  | _ + 1, _, _, [] => []
  | fuel + 1, atStart, ln, c :: rest =>
    if atStart then
      match try_ (c :: rest) with
      | some p =>
        (p.1, ln) ::
          anchoredPosGo try_ fuel false
            (ln + (nlCount (c :: rest) - nlCount p.2)) p.2
      | none =>
        anchoredPosGo try_ fuel (isLineTerm c)
          (if c = nlC then ln + 1 else ln) rest
    else
      anchoredPosGo try_ fuel (isLineTerm c)
        (if c = nlC then ln + 1 else ln) rest

def anchoredPosMatches (try_ : Chars → Option (Chars × Chars)) (s : Chars) :
    List (Chars × Nat) := anchoredPosGo try_ s.length true 0 s

structure PyHarvest where
  classNodes : List Node
  fns : List Fn

def harvestPython (text : Chars) (fileLabel fsPath moduleId : String) :
    PyHarvest :=
  let classMs := anchoredPosMatches tryPyClass text
  let defMs := anchoredPosMatches tryPyDef text
  { classNodes := classMs.map (fun m =>
      { id := makeClassId fileLabel (String.mk m.1), kind := NodeKind.cls,
        label := String.mk m.1, parent := some moduleId, fsPath := some fsPath,
        source := none, collapsed := false, docked := true, snippet := none,
        rangeLine := some m.2, rangeCol := some 0, lspStatus := none,
        heuristicCalls := none }),
    fns := defMs.map (fun m =>
      { id := makeFuncId fileLabel (String.mk m.1) m.2,
        name := String.mk m.1, startL := m.2, endL := m.2, col := 0,
        parent := moduleId }) }

/-! Same-file call edges (`addSameFileCallEdges`): exclusively from the
call-hierarchy provider, never from text. -/

/-- One outgoing call reported by the provider: `to.name` and
`(to.selectionRange || to.range)?.start?.line`. -/
structure OutCall where
  toName : String
  toSelLine : Option Nat
deriving Repr, DecidableEq

/-- `s.split('.').pop() || ''`. -/
def lastDotPop (s : Chars) : Chars :=
  ((splitOnC dotC s).getLast?).getD []

/-- `replace(/\(.*$/, '')`: cut from the first opening parenthesis that has
no line terminator after it (the `$` is end-of-input; `.` cannot cross a
line terminator). -/
def stripParenTail : Chars → Chars
  | [] => []
  | c :: rest =>
    if c = lparC ∧ rest.all (fun d => !(isLineTerm d)) then []
    else c :: stripParenTail rest

def outCallEdges (functions : List Fn) (fnId : String) :
    List OutCall → List Edge
  | [] => []
  | oc :: rest =>
    if oc.toName = "" then outCallEdges functions fnId rest
    else
      let target : Option Fn :=
        match oc.toSelLine with
        | some l => functions.find? (fun f => f.startL = l)
        | none => none
      let target2 : Option Fn :=
        match target with
        | some t => some t
        | none =>
          let simple := stripParenTail (lastDotPop oc.toName.data)
          functions.find? (fun f => lastDotPop f.name.data = simple)
      match target2 with
      | some t =>
        { src := fnId, dst := t.id, etype := EdgeType.call,
          heuristic := some false, provenance := some Prov.hierarchy,
          confidence := some 1 } :: outCallEdges functions fnId rest
      | none => outCallEdges functions fnId rest

def sameFileGo (functions : List Fn)
    (hier : Nat → Nat → Option (List OutCall)) : List Fn → List Edge
  | [] => []
  | fn :: rest =>
    (match hier fn.startL (max 0 fn.col) with
     | none => []
     | some ocs => outCallEdges functions fn.id ocs) ++
      sameFileGo functions hier rest

def sameFileCallEdges (functions : List Fn)
    (hier : Nat → Nat → Option (List OutCall)) : List Edge :=
  sameFileGo functions hier functions

/-- The first node whose predicate holds is replaced (`nodes.find` followed
by in-place mutation in the source). -/
def updateFirst (p : Node → Bool) (f : Node → Node) : List Node → List Node
  | [] => []
  | n :: rest => if p n then f n :: rest else n :: updateFirst p f rest

def funcNodeOf (fsPath : String) (lines : List Chars) (fn : Fn) : Node :=
  { id := fn.id, kind := NodeKind.func, label := fn.name,
    parent := some fn.parent, fsPath := some fsPath, source := none,
    collapsed := false, docked := true,
    snippet := some (String.mk (snippetFrom lines fn.startL 20)),
    rangeLine := some fn.startL, rangeCol := some fn.col,
    lspStatus := none, heuristicCalls := none }

/-- `parseWithLsp(uri, text)`: symbol answer and call-hierarchy answers are
explicit inputs. -/
def parseWithLsp (fileLabel fsPath text : String) (symbols : List DS)
    (hier : Nat → Nat → Option (List OutCall)) : ParseResult :=
  let moduleId := makeModuleId (normalizePosixPath fileLabel)
  let modNode0 : Node :=
    { id := moduleId, kind := NodeKind.module, label := fileLabel,
      parent := none, fsPath := some fsPath, source := some text,
      collapsed := true, docked := false, snippet := none, rangeLine := none,
      rangeCol := none, lspStatus := none, heuristicCalls := none }
  let diagnostics0 : List Diag :=
    if symbols.isEmpty then
      [{ file := fsPath, severity := "warn",
         message := "Language Server returned no symbols for this file." }]
    else []
  let lines := splitRN text.data
  let st := visitListDS fileLabel fsPath moduleId lines ⟨[], [], []⟩ none symbols
  let usePyHeur := st.functions = [] ∧ lcEnds ".py".data fsPath.data
  let harvest := harvestPython text.data fileLabel fsPath moduleId
  let classNodes1 :=
    if usePyHeur then st.classNodes ++ harvest.classNodes else st.classNodes
  let functions1 :=
    if usePyHeur then st.functions ++ harvest.fns else st.functions
  let diagnostics1 :=
    if usePyHeur then diagnostics0 ++
      [{ file := fsPath, severity := "warn",
         message := "LSP returned no functions; filled via Python heuristics." }]
    else diagnostics0
  let funcNodes := functions1.map (funcNodeOf fsPath lines)
  let edges := sameFileCallEdges functions1 hier
  let status : PStatus :=
    if symbols.isEmpty then
      (if functions1.isEmpty then PStatus.part else PStatus.part)
    else PStatus.ok
  let nodes :=
    updateFirst (fun n => n.id == moduleId)
      (fun n =>
        { n with lspStatus := some status, heuristicCalls := some false })
      (modNode0 :: classNodes1 ++ funcNodes)
  { nodes := nodes, edges := edges, status := status,
    diagnostics := diagnostics1 }

theorem parseWithLsp_status_formula (fileLabel fsPath text : String)
    (symbols : List DS) (hier : Nat → Nat → Option (List OutCall)) :
    (parseWithLsp fileLabel fsPath text symbols hier).status
      = if symbols.isEmpty then PStatus.part else PStatus.ok := by
  cases symbols with
  | nil => simp only [parseWithLsp, List.isEmpty, ite_self, if_pos]
  | cons a l => rfl

/-- C2.  The mapper returns `ok` exactly when the provider returned at
least one symbol; with zero symbols it returns `partial`; it never returns
`nolsp` (that value is assigned only by the orchestrator's fallback). -/
theorem parseWithLsp_status_spec (fileLabel fsPath text : String)
    (symbols : List DS) (hier : Nat → Nat → Option (List OutCall)) :
    ((parseWithLsp fileLabel fsPath text symbols hier).status = PStatus.ok
        ↔ symbols ≠ []) ∧
    (symbols = [] →
      (parseWithLsp fileLabel fsPath text symbols hier).status = PStatus.part) ∧
    (parseWithLsp fileLabel fsPath text symbols hier).status ≠ PStatus.nolsp := by
  rw [parseWithLsp_status_formula]
  cases symbols with
  | nil => simp [List.isEmpty]
  | cons a l => simp [List.isEmpty]

/-- Witness for `parseWithLsp_status_spec`: zero symbols yield `partial`. -/
theorem parseWithLsp_status_spec_witness :
    (parseWithLsp "a.py" "/w/a.py" "def f(): pass\n" []
        (fun _ _ => none)).status = PStatus.part :=
  (parseWithLsp_status_spec "a.py" "/w/a.py" "def f(): pass\n" []
    (fun _ _ => none)).2.1 rfl

theorem outCallEdges_props (functions : List Fn) (fnId : String) :
    ∀ ocs, ∀ e ∈ outCallEdges functions fnId ocs,
      e.provenance = some Prov.hierarchy ∧ e.confidence = some 1 ∧
      e.etype = EdgeType.call ∧ e.heuristic = some false ∧ e.src = fnId := by
  intro ocs
  induction ocs with
  | nil => intro e he; simp [outCallEdges] at he
  | cons oc rest ih =>
    intro e he
    simp only [outCallEdges] at he
    by_cases hn : oc.toName = ""
    · rw [if_pos hn] at he; exact ih e he
    · rw [if_neg hn] at he
      cases htgt : (match
          (match oc.toSelLine with
           | some l => functions.find? (fun f => f.startL = l)
           | none => none : Option Fn) with
        | some t => some t
        | none =>
          functions.find? (fun f =>
            lastDotPop f.name.data
              = stripParenTail (lastDotPop oc.toName.data)) : Option Fn) with
      | none => rw [htgt] at he; exact ih e he
      | some t =>
        rw [htgt] at he
        rcases List.mem_cons.mp he with h | h
        · subst h; exact ⟨rfl, rfl, rfl, rfl, rfl⟩
        · exact ih e h

theorem sameFileGo_props (functions : List Fn)
    (hier : Nat → Nat → Option (List OutCall)) :
    ∀ fns2, ∀ e ∈ sameFileGo functions hier fns2,
      e.provenance = some Prov.hierarchy ∧ e.confidence = some 1 ∧
      e.etype = EdgeType.call ∧ e.heuristic = some false := by
  intro fns2
  induction fns2 with
  | nil => intro e he; simp [sameFileGo] at he
  | cons fn rest ih =>
    intro e he
    simp only [sameFileGo] at he
    rcases List.mem_append.mp he with h | h
    · cases hh : hier fn.startL (max 0 fn.col) with
      | none => rw [hh] at h; simp at h
      | some ocs =>
        rw [hh] at h
        have := outCallEdges_props functions fn.id ocs e h
        exact ⟨this.1, this.2.1, this.2.2.1, this.2.2.2.1⟩
    · exact ih e h

theorem sameFileGo_none (functions : List Fn)
    (hier : Nat → Nat → Option (List OutCall))
    (hnone : ∀ l c, hier l c = none) :
    ∀ fns2, sameFileGo functions hier fns2 = [] := by
  intro fns2
  induction fns2 with
  | nil => rfl
  | cons fn rest ih =>
    simp only [sameFileGo, hnone fn.startL (max 0 fn.col), ih]
    rfl

/-- C5.  Same-file call edges come only from the call-hierarchy provider
queried at each function's declaration position: every edge the mapper
emits carries `provenance = hierarchy`, `confidence = 1`, type `call` and
`heuristic = false`; when the provider offers no call hierarchy at all the
edge list is empty (nothing is guessed from text); and the module node
(first emitted node) always carries `heuristicCalls = false`. -/
theorem parseWithLsp_call_edges_spec (fileLabel fsPath text : String)
    (symbols : List DS) (hier : Nat → Nat → Option (List OutCall)) :
    (∀ e ∈ (parseWithLsp fileLabel fsPath text symbols hier).edges,
        e.provenance = some Prov.hierarchy ∧ e.confidence = some 1 ∧
        e.etype = EdgeType.call ∧ e.heuristic = some false) ∧
    ((parseWithLsp fileLabel fsPath text symbols hier).nodes.head?.map
        (fun n => (n.kind, n.heuristicCalls))
      = some (NodeKind.module, some false)) ∧
    ((∀ l c, hier l c = none) →
      (parseWithLsp fileLabel fsPath text symbols hier).edges = []) := by
  refine ⟨?_, ?_, ?_⟩
  · intro e he
    exact sameFileGo_props _ hier _ e he
  · show (updateFirst _ _ _).head?.map _ = _
    simp only [updateFirst]
    rw [if_pos (by exact beq_self_eq_true _)]
    rfl
  · intro hnone
    exact sameFileGo_none _ hier hnone _

/-- Witness for `parseWithLsp_call_edges_spec`: with a provider lacking
call hierarchy the parse result has zero call edges. -/
theorem parseWithLsp_call_edges_spec_witness :
    (parseWithLsp "a.py" "/w/a.py" "def foo(): pass\ndef bar(): foo()\n" []
        (fun _ _ => none)).edges = [] :=
  (parseWithLsp_call_edges_spec "a.py" "/w/a.py"
    "def foo(): pass\ndef bar(): foo()\n" [] (fun _ _ => none)).2.2
    (fun _ _ => rfl)

/-! ### The cross-file call resolver (`src/services/resolve/crossFileCalls.ts`)

The Parse Index (`parseService.getIndex()`, a `Map` from `fsPath` to the
stored `ParseResult`) is an insertion-ordered association list.  The
call-hierarchy provider is `hierAt : line → col → Option (List CFItem)`
(`none` = prepare failed / empty head, skipped); the positional `chCache`
memoizes exactly this function, so it is transparent here. -/

abbrev ParseIndex := List (String × ParseResult)

/-- `oc.to` of a cross-file outgoing call: its file (`fileKey(item.uri)`),
its name, and `(item.selectionRange || item.range)?.start?.line`. -/
structure CFItem where
  uriFs : Option String
  itemName : Option String
  selLine : Option Nat
deriving Repr, DecidableEq

/-- `simpleName` of `crossFileCalls.ts`: `s.split('.').pop() || s`, then
the paren tail cut. -/
def simpleNameCross (s : Chars) : Chars :=
  let last := ((splitOnC dotC s).getLast?).getD []
  stripParenTail (if last = [] then s else last)

/-- Append a function under its simple name, keeping key insertion order
(JS `Map.get(key).push(fn)` / `Map.set`). -/
def addGroup : List (String × List Node) → String → Node →
    List (String × List Node)
  | [], key, fn => [(key, [fn])]
  | (k, l) :: rest, key, fn =>
    if k = key then (k, l ++ [fn]) :: rest
    else (k, l) :: addGroup rest key fn

def groupFns : List Node → List (String × List Node) →
    List (String × List Node)
  | [], m => m
  | fn :: rest, m =>
    groupFns rest (addGroup m (String.mk (simpleNameCross fn.label.data)) fn)

/-- `buildWorkspaceFuncIndex(parseService)`: for each indexed file, its
function nodes grouped by simple name; files without function nodes are
skipped. -/
def buildWorkspaceFuncIndex : ParseIndex →
    List (String × List (String × List Node))
  | [] => []
  | (fsPath, art) :: rest =>
    let fnNodes := art.nodes.filter (fun n => n.kind == NodeKind.func)
    if fnNodes.isEmpty then buildWorkspaceFuncIndex rest
    else (fsPath, groupFns fnNodes []) :: buildWorkspaceFuncIndex rest

def maxSafeInt : Nat := 9007199254740991

def natDist (a b : Nat) : Nat := if a ≤ b then b - a else a - b

def pickBestGo (tLine : Nat) : List Node → Node → Nat → Node
  | [], best, _ => best
  | c :: rest, best, bestDelta =>
    let line := c.rangeLine.getD 0
    let delta := natDist line tLine
    if delta < bestDelta then pickBestGo tLine rest c delta
    else pickBestGo tLine rest best bestDelta

/-- `pickBestTarget(item, candidates)`: without a reported line the first
candidate wins; otherwise the candidate with the smallest line distance
(first-found wins ties, strict improvement only). -/
def pickBest (selLine : Option Nat) : List Node → Option Node
  | [] => none
  | c0 :: cs =>
    match selLine with
    | none => some c0
    | some tLine => some (pickBestGo tLine (c0 :: cs) c0 maxSafeInt)

def typeStr : EdgeType → String
  | EdgeType.imports => "import"
  | EdgeType.call => "call"

def tripleKey (t : String × String × EdgeType) : String :=
  t.1 ++ "->" ++ t.2.1 ++ ":" ++ typeStr t.2.2

/-- The dedup key `${e.from}->${e.to}:${e.type}`. -/
def edgeKey (e : Edge) : String := tripleKey (e.src, e.dst, e.etype)

/-- The edge pushed for one resolved target. -/
def crossEdge (fnId tid : String) : Edge :=
  { src := fnId, dst := tid, etype := EdgeType.call, heuristic := none,
    provenance := some Prov.hierarchy, confidence := some 1 }

/-- Emit for a picked target: dedup by the string key, push otherwise. -/
def crossEmit (fnId : String) (seen : List String) (emit : List Edge) :
    Option Node → List String × List Edge
  | none => (seen, emit)
  | some best =>
    if edgeKey (crossEdge fnId best.id) ∈ seen then (seen, emit)
    else (seen ++ [edgeKey (crossEdge fnId best.id)],
          emit ++ [crossEdge fnId best.id])

/-- Candidate handling: `if (!candidates?.length) continue;` then
`pickBestTarget`. -/
def crossCands (fnId : String) (selLine : Option Nat) (seen : List String)
    (emit : List Edge) : Option (List Node) → List String × List Edge
  | none => (seen, emit)
  | some candidates =>
    if candidates.isEmpty then (seen, emit)
    else crossEmit fnId seen emit (pickBest selLine candidates)

/-- One iteration of the inner loop over a function's outgoing calls
(each `continue` of the source leaves the accumulators unchanged). -/
def crossStep (byF : List (String × List (String × List Node)))
    (fnId : String) (oc : CFItem) (seen : List String) (emit : List Edge) :
    List String × List Edge :=
  match oc.uriFs, oc.itemName with
  | some u, some nm =>
    if nm = "" then (seen, emit)
    else
      crossCands fnId oc.selLine seen emit
        ((byF.lookup u).bind
          (fun m => m.lookup (String.mk (simpleNameCross nm.data))))
  | _, _ => (seen, emit)

/-- The inner loop over one function's outgoing calls, threading the `seen`
key set and the `emit` list. -/
def crossOut (byF : List (String × List (String × List Node)))
    (fnId : String) :
    List CFItem → List String → List Edge → List String × List Edge
  | [], seen, emit => (seen, emit)
  | oc :: rest, seen, emit =>
    let p := crossStep byF fnId oc seen emit
    crossOut byF fnId rest p.1 p.2

def crossFns (byF : List (String × List (String × List Node)))
    (hierAt : Nat → Nat → Option (List CFItem)) :
    List Node → List String → List Edge → List Edge
  | [], _, emit => emit
  | fn :: rest, seen, emit =>
    let line := max 0 (fn.rangeLine.getD 0)
    let col := max 0 (fn.rangeCol.getD 0)
    match hierAt line col with
    | none => crossFns byF hierAt rest seen emit
    | some outgoing =>
      let p := crossOut byF fn.id outgoing seen emit
      crossFns byF hierAt rest p.1 p.2

structure CrossFileOutcome where
  edges : List Edge
  capMessage : Bool
deriving Repr, DecidableEq

/-- The body of `resolveCrossFileCallsForFile` applied to the Parse Index
lookup of the file. -/
def resolveCFAux (index : ParseIndex)
    (hierAt : Nat → Nat → Option (List CFItem)) (cap : Nat) :
    Option ParseResult → CrossFileOutcome
  | none => ⟨[], false⟩
  | some art =>
    let fnNodes := art.nodes.filter (fun n => n.kind == NodeKind.func)
    if fnNodes.isEmpty then ⟨[], false⟩
    else
      let byF := buildWorkspaceFuncIndex index
      let emit := crossFns byF hierAt fnNodes [] []
      ⟨emit.take (max 1 cap), decide (emit.length > cap)⟩

/-- `resolveCrossFileCallsForFile(uri, parseService, webview)` with the
`depviz.crossFileCallsMax` value passed explicitly; the returned `edges`
are the posted payload (`emit.slice(0, Math.max(1, cap))`), `capMessage`
records whether the truncation message fired. -/
def resolveCrossFileCallsForFile (fsPath : String) (index : ParseIndex)
    (hierAt : Nat → Nat → Option (List CFItem)) (cap : Nat) :
    CrossFileOutcome :=
  resolveCFAux index hierAt cap (index.lookup fsPath)

/-- The target id belongs to a function node stored in the Parse Index. -/
def funcIdInIndex (index : ParseIndex) (tid : String) : Prop :=
  ∃ p ∈ index, ∃ n ∈ p.2.nodes, n.kind = NodeKind.func ∧ n.id = tid

theorem lookup_mem {α β : Type} [BEq α] [LawfulBEq α]
    (l : List (α × β)) (k : α) (v : β)
    (h : List.lookup k l = some v) : (k, v) ∈ l := by
  induction l with
  | nil => simp [List.lookup] at h
  | cons p rest ih =>
    rw [List.lookup] at h
    by_cases hk : k == p.1
    · rw [hk] at h
      simp only [Option.some.injEq] at h
      have hkv : (k, v) = p := by
        rw [eq_of_beq hk, ← h]
      rw [hkv]
      exact List.mem_cons_self _ _
    · rw [Bool.not_eq_true] at hk
      rw [hk] at h
      exact List.mem_cons_of_mem p (ih h)

theorem addGroup_inv {P : Node → Prop} (key : String) (fn : Node)
    (hfn : P fn) :
    ∀ m, (∀ kl ∈ m, ∀ n ∈ kl.2, P n) →
      ∀ kl ∈ addGroup m key fn, ∀ n ∈ kl.2, P n := by
  intro m
  induction m with
  | nil =>
    intro _ kl hkl n hn
    simp only [addGroup, List.mem_singleton] at hkl
    subst hkl
    simp only [List.mem_singleton] at hn
    subst hn; exact hfn
  | cons p rest ih =>
    intro hm kl hkl n hn
    simp only [addGroup] at hkl
    by_cases hk : p.1 = key
    · rw [if_pos hk] at hkl
      rcases List.mem_cons.mp hkl with h | h
      · subst h
        rcases List.mem_append.mp hn with h2 | h2
        · exact hm p (by simp) n h2
        · simp only [List.mem_singleton] at h2; subst h2; exact hfn
      · exact hm kl (List.mem_cons_of_mem p h) n hn
    · rw [if_neg hk] at hkl
      rcases List.mem_cons.mp hkl with h | h
      · subst h; exact hm p (by simp) n hn
      · exact ih (fun kl2 hkl2 => hm kl2 (List.mem_cons_of_mem p hkl2)) kl h n hn

theorem groupFns_inv {P : Node → Prop} :
    ∀ fns m, (∀ kl ∈ m, ∀ n ∈ kl.2, P n) → (∀ n ∈ fns, P n) →
      ∀ kl ∈ groupFns fns m, ∀ n ∈ kl.2, P n := by
  intro fns
  induction fns with
  | nil => intro m hm _ kl hkl; exact hm kl hkl
  | cons fn rest ih =>
    intro m hm hfns kl hkl
    simp only [groupFns] at hkl
    exact ih _
      (addGroup_inv _ fn (hfns fn (by simp)) m hm)
      (fun n hn => hfns n (List.mem_cons_of_mem fn hn)) kl hkl

/-- Every function node stored in the workspace function index is a `func`
node of some Parse Index entry. -/
theorem buildWorkspaceFuncIndex_spec :
    ∀ index : ParseIndex, ∀ fm ∈ buildWorkspaceFuncIndex index,
      ∀ kl ∈ fm.2, ∀ n ∈ kl.2,
        n.kind = NodeKind.func ∧ ∃ p ∈ index, n ∈ p.2.nodes := by
  intro index
  induction index with
  | nil => intro fm hfm; simp [buildWorkspaceFuncIndex] at hfm
  | cons entry rest ih =>
    intro fm hfm kl hkl n hn
    simp only [buildWorkspaceFuncIndex] at hfm
    by_cases hempty :
        (entry.2.nodes.filter (fun n => n.kind == NodeKind.func)).isEmpty
    · rw [if_pos hempty] at hfm
      obtain ⟨hk, ⟨p, hp, hmem⟩⟩ := ih fm hfm kl hkl n hn
      exact ⟨hk, p, List.mem_cons_of_mem entry hp, hmem⟩
    · rw [if_neg hempty] at hfm
      rcases List.mem_cons.mp hfm with h | h
      · subst h
        have hgrp := groupFns_inv
          (P := fun n => n.kind = NodeKind.func ∧ n ∈ entry.2.nodes)
          (entry.2.nodes.filter (fun n => n.kind == NodeKind.func)) []
          (by intro kl2 hkl2; simp at hkl2)
          (by
            intro n2 hn2
            have := List.mem_filter.mp hn2
            refine ⟨by simpa using this.2, this.1⟩)
          kl hkl n hn
        exact ⟨hgrp.1, entry, by simp, hgrp.2⟩
      · obtain ⟨hk, ⟨p, hp, hmem⟩⟩ := ih fm h kl hkl n hn
        exact ⟨hk, p, List.mem_cons_of_mem entry hp, hmem⟩

theorem pickBestGo_mem (tLine : Nat) :
    ∀ l best d, pickBestGo tLine l best d ∈ l ∨ pickBestGo tLine l best d = best := by
  intro l
  induction l with
  | nil => intro best d; right; rfl
  | cons c rest ih =>
    intro best d
    simp only [pickBestGo]
    by_cases hlt : natDist (c.rangeLine.getD 0) tLine < d
    · rw [if_pos hlt]
      rcases ih c (natDist (c.rangeLine.getD 0) tLine) with h | h
      · left; exact List.mem_cons_of_mem c h
      · left; rw [h]; simp
    · rw [if_neg hlt]
      rcases ih best d with h | h
      · left; exact List.mem_cons_of_mem c h
      · right; exact h

theorem pickBest_mem (selLine : Option Nat) (cands : List Node) (b : Node)
    (h : pickBest selLine cands = some b) : b ∈ cands := by
  match cands with
  | [] => simp [pickBest] at h
  | c0 :: cs =>
    match selLine with
    | none =>
      simp only [pickBest, Option.some.injEq] at h
      subst h; simp
    | some tLine =>
      simp only [pickBest, Option.some.injEq] at h
      subst h
      rcases pickBestGo_mem tLine (c0 :: cs) c0 maxSafeInt with h2 | h2
      · exact h2
      · rw [h2]; simp

/-- The property of having all stored nodes be index function nodes. -/
def byFok (index : ParseIndex)
    (byF : List (String × List (String × List Node))) : Prop :=
  ∀ fm ∈ byF, ∀ kl ∈ fm.2, ∀ n ∈ kl.2,
    n.kind = NodeKind.func ∧ ∃ p ∈ index, n ∈ p.2.nodes

/-- Loop invariant of the emit/seen accumulation. -/
def crossInv (index : ParseIndex) (seen : List String)
    (emit : List Edge) : Prop :=
  (∀ e ∈ emit, funcIdInIndex index e.dst) ∧
  (emit.map edgeKey).Nodup ∧
  (∀ e ∈ emit, edgeKey e ∈ seen)

theorem crossStep_addCase (index : ParseIndex) (seen : List String)
    (emit : List Edge) (e : Edge) (h : crossInv index seen emit)
    (hQe : funcIdInIndex index e.dst) (hseen : edgeKey e ∉ seen) :
    crossInv index (seen ++ [edgeKey e]) (emit ++ [e]) := by
  obtain ⟨hQ, hnd, hsub⟩ := h
  refine ⟨?_, ?_, ?_⟩
  · intro e2 he2
    rcases List.mem_append.mp he2 with h2 | h2
    · exact hQ e2 h2
    · simp only [List.mem_singleton] at h2
      subst h2; exact hQe
  · rw [List.map_append]
    simp only [List.map_cons, List.map_nil]
    rw [List.nodup_append]
    refine ⟨hnd, by simp, ?_⟩
    intro k hk
    simp only [List.mem_singleton]
    intro hkey
    subst hkey
    obtain ⟨e3, he3, hke3⟩ := List.mem_map.mp hk
    exact hseen (hke3 ▸ hsub e3 he3)
  · intro e2 he2
    rcases List.mem_append.mp he2 with h2 | h2
    · exact List.mem_append.mpr (Or.inl (hsub e2 h2))
    · simp only [List.mem_singleton] at h2
      subst h2
      exact List.mem_append.mpr (Or.inr (by simp))

theorem crossEmit_inv (index : ParseIndex) (fnId : String)
    (seen : List String) (emit : List Edge) (h : crossInv index seen emit)
    (opt : Option Node)
    (hopt : ∀ b, opt = some b → funcIdInIndex index b.id) :
    crossInv index (crossEmit fnId seen emit opt).1
      (crossEmit fnId seen emit opt).2 := by
  cases opt with
  | none => exact h
  | some best =>
    simp only [crossEmit]
    by_cases hseen : edgeKey (crossEdge fnId best.id) ∈ seen
    · rw [if_pos hseen]; exact h
    · rw [if_neg hseen]
      exact crossStep_addCase index seen emit (crossEdge fnId best.id) h
        (hopt best rfl) hseen

theorem crossCands_inv (index : ParseIndex) (fnId : String)
    (selLine : Option Nat) (seen : List String) (emit : List Edge)
    (h : crossInv index seen emit) (opt : Option (List Node))
    (hopt : ∀ l, opt = some l → ∀ n ∈ l, funcIdInIndex index n.id) :
    crossInv index (crossCands fnId selLine seen emit opt).1
      (crossCands fnId selLine seen emit opt).2 := by
  cases opt with
  | none => exact h
  | some candidates =>
    simp only [crossCands]
    by_cases he : candidates.isEmpty
    · rw [if_pos he]; exact h
    · rw [if_neg he]
      refine crossEmit_inv index fnId seen emit h _ ?_
      intro b hb
      exact hopt candidates rfl b (pickBest_mem selLine candidates b hb)

theorem crossStep_inv (index : ParseIndex)
    (byF : List (String × List (String × List Node)))
    (hbyF : byFok index byF) (fnId : String) (oc : CFItem)
    (seen : List String) (emit : List Edge)
    (h : crossInv index seen emit) :
    crossInv index (crossStep byF fnId oc seen emit).1
      (crossStep byF fnId oc seen emit).2 := by
  obtain ⟨uriFs, itemName, selLine⟩ := oc
  cases uriFs with
  | none => exact h
  | some u =>
    cases itemName with
    | none => exact h
    | some nm =>
      show crossInv index
        (if nm = "" then (seen, emit)
         else crossCands fnId selLine seen emit
           ((byF.lookup u).bind
             (fun m => m.lookup (String.mk (simpleNameCross nm.data))))).1
        (if nm = "" then (seen, emit)
         else crossCands fnId selLine seen emit
           ((byF.lookup u).bind
             (fun m => m.lookup (String.mk (simpleNameCross nm.data))))).2
      by_cases hempty : nm = ""
      · rw [if_pos hempty]; exact h
      · rw [if_neg hempty]
        refine crossCands_inv index fnId selLine seen emit h _ ?_
        intro candidates hlk n hn
        simp only [Option.bind_eq_some] at hlk
        obtain ⟨nmMap, hl1, hl2⟩ := hlk
        have h1 := lookup_mem byF u nmMap hl1
        have h2 := lookup_mem nmMap _ candidates hl2
        obtain ⟨hkind, p, hp, hmem⟩ :=
          hbyF (u, nmMap) h1 (_, candidates) h2 n hn
        exact ⟨p, hp, n, hmem, hkind, rfl⟩

theorem crossOut_inv (index : ParseIndex)
    (byF : List (String × List (String × List Node)))
    (hbyF : byFok index byF) (fnId : String) :
    ∀ items seen emit, crossInv index seen emit →
      crossInv index (crossOut byF fnId items seen emit).1
        (crossOut byF fnId items seen emit).2 := by
  intro items
  induction items with
  | nil => intro seen emit h; exact h
  | cons oc rest ih =>
    intro seen emit h
    simp only [crossOut]
    exact ih _ _ (crossStep_inv index byF hbyF fnId oc seen emit h)

theorem crossFns_inv (index : ParseIndex)
    (byF : List (String × List (String × List Node)))
    (hbyF : byFok index byF)
    (hierAt : Nat → Nat → Option (List CFItem)) :
    ∀ fns seen emit, crossInv index seen emit →
      (∀ e ∈ crossFns byF hierAt fns seen emit, funcIdInIndex index e.dst) ∧
      ((crossFns byF hierAt fns seen emit).map edgeKey).Nodup := by
  intro fns
  induction fns with
  | nil => intro seen emit h; exact ⟨h.1, h.2.1⟩
  | cons fn rest ih =>
    intro seen emit h
    simp only [crossFns]
    cases hh : hierAt (max 0 (fn.rangeLine.getD 0)) (max 0 (fn.rangeCol.getD 0)) with
    | none => exact ih seen emit h
    | some outgoing =>
      exact ih _ _ (crossOut_inv index byF hbyF fn.id outgoing seen emit h)

/-- C4.  Every edge emitted by a resolution pass targets the id of a
function node present in the Parse Index the workspace function index was
built from, and the emitted edges are deduplicated by `(from, to, type)`
within the pass (the cap-truncated payload inherits both properties). -/
theorem resolveCrossFileCalls_targets_in_index (fsPath : String)
    (index : ParseIndex) (hierAt : Nat → Nat → Option (List CFItem))
    (cap : Nat) :
    (∀ e ∈ (resolveCrossFileCallsForFile fsPath index hierAt cap).edges,
        funcIdInIndex index e.dst) ∧
    ((resolveCrossFileCallsForFile fsPath index hierAt cap).edges.map
        (fun e => (e.src, e.dst, e.etype))).Nodup := by
  unfold resolveCrossFileCallsForFile
  cases hlk : index.lookup fsPath with
  | none =>
    exact ⟨by intro e he; simp [resolveCFAux] at he, by simp [resolveCFAux]⟩
  | some art =>
    simp only [resolveCFAux]
    by_cases hempty :
        (art.nodes.filter (fun n => n.kind == NodeKind.func)).isEmpty
    · rw [if_pos hempty]
      exact ⟨by intro e he; simp at he, by simp⟩
    · rw [if_neg hempty]
      have hbyF : byFok index (buildWorkspaceFuncIndex index) := by
        intro fm hfm kl hkl n hn
        exact buildWorkspaceFuncIndex_spec index fm hfm kl hkl n hn
      have hinv := crossFns_inv index _ hbyF hierAt
        (art.nodes.filter (fun n => n.kind == NodeKind.func)) [] []
        ⟨by intro e he; simp at he, by simp, by intro e he; simp at he⟩
      constructor
      · intro e he
        exact hinv.1 e (List.mem_of_mem_take he)
      · have hkeys :
            (((crossFns (buildWorkspaceFuncIndex index) hierAt
              (art.nodes.filter (fun n => n.kind == NodeKind.func)) [] []).take
                (max 1 cap)).map edgeKey).Nodup := by
          rw [List.map_take]
          exact hinv.2.sublist (List.take_sublist _ _)
        have hcomp :
            ((crossFns (buildWorkspaceFuncIndex index) hierAt
              (art.nodes.filter (fun n => n.kind == NodeKind.func)) [] []).take
                (max 1 cap)).map edgeKey
            = (((crossFns (buildWorkspaceFuncIndex index) hierAt
              (art.nodes.filter (fun n => n.kind == NodeKind.func)) [] []).take
                (max 1 cap)).map (fun e => (e.src, e.dst, e.etype))).map
                  tripleKey := by
          rw [List.map_map]; rfl
        rw [hcomp] at hkeys
        exact hkeys.of_map tripleKey

/-- Concrete data for the C4 witness: a one-file index holding one
function node, and a provider reporting one outgoing call to it. -/
def wFn : Fn :=
  { id := "fn:b.ts#baz@0", name := "baz", startL := 0, endL := 0, col := 0,
    parent := "mod:b.ts" }

def wIndex : ParseIndex :=
  [("b.ts",
    { nodes := [funcNodeOf "/w/b.ts" [] wFn], edges := [],
      status := PStatus.ok, diagnostics := [] })]

def wHier : Nat → Nat → Option (List CFItem) :=
  fun _ _ =>
    some [{ uriFs := some "b.ts", itemName := some "baz", selLine := some 0 }]

/-- Witness for `resolveCrossFileCalls_targets_in_index`: the single
emitted edge targets the indexed function node. -/
theorem resolveCrossFileCalls_targets_in_index_witness :
    funcIdInIndex wIndex "fn:b.ts#baz@0" :=
  (resolveCrossFileCalls_targets_in_index "b.ts" wIndex wHier 5000).1
    (crossEdge "fn:b.ts#baz@0" "fn:b.ts#baz@0") (by decide)

/-! ### The import/batch orchestrator (`src/services/import/importService.ts`)

`importUri` is embedded for file inputs; the directory branch
(`stat.type & Directory`, which recurses over `readDirectory` children
filtered by `SKIP_DIRS`) needs a file-system model and is not part of any
claim here.  External collaborators appear as explicit inputs: the content
hash (`hash` from `src/shared/encoding.ts`, not part of the sources) is an
arbitrary function `hashFn`; `normalizePath` (from
`src/shared/workspace.ts`, also not in the sources) is a deterministic
key-normalization modelled as the identity; the webview sink's
`postMessage` result is the boolean `sinkOk`; `parseService.parseFile` is
`doParseFile` (whose outcome is the `parseOutcome` input) followed by the
index store. -/

def SKIP_EXTS : List String :=
  [".d.ts.map", ".min.js", ".map", ".lock",
   ".png", ".jpg", ".jpeg", ".gif", ".svg", ".ico",
   ".webp", ".bmp", ".tif", ".tiff", ".apng", ".avif",
   ".pdf", ".zip", ".pyc", ".pyo", ".whl", ".so", ".dll", ".class"]

/-- `split(/[/\x5c]/)` — both slashes separate path segments. -/
def splitSlashes : Chars → List Chars
  | [] => [[]]
  | c :: rest =>
    let r := splitSlashes rest
    if c = slashC || c = bsC then [] :: r else (c :: r.headD []) :: r.tail

def trimC (s : Chars) : Chars :=
  ((s.dropWhile isWs).reverse.dropWhile isWs).reverse

/-- `extOf` from `src/shared/text.ts`: multi-dot extension of the basename,
lowercased; dotfiles have no extension. -/
def extOf (p : String) : String :=
  let base := trimC (((splitSlashes p.data).getLast?).getD [])
  if base.isEmpty || [dotC].isPrefixOf base then ""
  else
    let pre := base.takeWhile (fun c => !(c = dotC))
    if pre.length = base.length then ""
    else String.mk ((base.drop pre.length).map Char.toLower)

/-- `normalizePath` (source file not included): modelled as the identity
key; the claims only need it to be a deterministic function of the path. -/
def normalizePath (p : String) : String := p

/-- `Map.set`: overwrite in place, else append. -/
def setA {β : Type} : List (String × β) → String → β → List (String × β)
  | [], k, v => [(k, v)]
  | (k', v') :: rest, k, v =>
    if k' = k then (k, v) :: rest else (k', v') :: setA rest k v

/-- `Map.delete`. -/
def eraseA {β : Type} (l : List (String × β)) (k : String) :
    List (String × β) :=
  l.filter (fun p => !(p.1 == k))

/-- Substring test (the `/Webview rejected/.test(String(err))` guard of the
outer catch). -/
def isInfixOfC (pat : Chars) : Chars → Bool
  | [] => pat.isPrefixOf ([] : Chars)
  | c :: rest => pat.isPrefixOf (c :: rest) || isInfixOfC pat rest

structure BatchStats where
  importedOk : Nat
  importedPartial : Nat
  importedNoLsp : Nat
  failed : Nat
  skippedBySize : Nat
  skippedByExt : Nat
deriving Repr, DecidableEq

/-- One `addArtifacts` message posted to the webview sink. -/
structure Delta where
  dnodes : List Node
  dedges : List Edge
  batchId : Option String
deriving Repr, DecidableEq

/-- The shared mutable state `importUri` touches: the Fingerprint Cache,
the Parse Index, the sequence of deltas accepted by the sink, and the
batch stats. -/
structure IState where
  fingerprints : List (String × String)
  index : ParseIndex
  emitted : List Delta
  stats : BatchStats
deriving Repr, DecidableEq

structure ImportInput where
  fsPath : String
  size : Nat
  text : String
deriving Repr, DecidableEq

def tallyStatus (st : IState) : PStatus → IState
  | PStatus.ok =>
    { st with stats :=
      { st.stats with importedOk := st.stats.importedOk + 1 } }
  | PStatus.part =>
    { st with stats :=
      { st.stats with importedPartial := st.stats.importedPartial + 1 } }
  | PStatus.nolsp =>
    { st with stats :=
      { st.stats with importedNoLsp := st.stats.importedNoLsp + 1 } }

def addFailed (st : IState) : IState :=
  { st with stats := { st.stats with failed := st.stats.failed + 1 } }

/-- The tail of `importUri` once the new fingerprint is stored and the
stale Parse Index entry invalidated: parse, store, post, tally,
cross-file resolution. -/
def importUriAfterFp (inp : ImportInput)
    (sinkOk : Bool) (batchId : Option String) (enableXfile : Bool)
    (hierAt : Nat → Nat → Option (List CFItem)) (xfileCap : Nat)
    (st : IState) : Except String ParseResult → IState
  | Except.error e =>
    -- inner catch: failed++ and rethrow; the outer catch adds another
    -- failed++ unless the message matches /Webview rejected/
    let inner := addFailed st
    if isInfixOfC "Webview rejected".data e.data then inner
    else addFailed inner
  | Except.ok result =>
    -- parseService.parseFile stores the fresh result in the Parse Index
    let st3 := { st with index := setA st.index inp.fsPath result }
    if !sinkOk then
      -- postMessage returned false: failed++, throw 'Webview rejected
      -- message' (the outer catch does not double-count this one)
      addFailed st3
    else
      let st4 := { st3 with emitted := st3.emitted ++
        [{ dnodes := result.nodes, dedges := result.edges,
           batchId := batchId }] }
      let st5 := tallyStatus st4 result.status
      if enableXfile ∧ result.status ≠ PStatus.nolsp then
        let ro := resolveCrossFileCallsForFile inp.fsPath st5.index hierAt
          xfileCap
        if ro.edges.isEmpty then st5
        else { st5 with emitted := st5.emitted ++
          [{ dnodes := [], dedges := ro.edges, batchId := none }] }
      else st5

/-- `importUri(uri, panel, token, stats, batchId)` for a file input. -/
def importUri (hashFn : String → String) (maxFileSize : Nat)
    (inp : ImportInput) (parseOutcome : Except String ParseResult)
    (sinkOk : Bool) (batchId : Option String) (enableXfile : Bool)
    (hierAt : Nat → Nat → Option (List CFItem)) (xfileCap : Nat)
    (cancelled : Bool) (st : IState) : IState :=
  if cancelled then st
  else if inp.size ≠ 0 ∧ inp.size > maxFileSize then
    { st with stats :=
      { st.stats with skippedBySize := st.stats.skippedBySize + 1 } }
  else if SKIP_EXTS.contains (extOf inp.fsPath) then
    { st with stats :=
      { st.stats with skippedByExt := st.stats.skippedByExt + 1 } }
  else
    let fingerprint := hashFn inp.text
    let key := normalizePath inp.fsPath
    if st.fingerprints.lookup key = some fingerprint then st  -- unchanged
    else
      let st1 := { st with
        fingerprints := setA st.fingerprints key fingerprint }
      let st2 := { st1 with index := eraseA st1.index inp.fsPath }
      importUriAfterFp inp sinkOk batchId enableXfile hierAt xfileCap st2
        parseOutcome

def sizeSkipped (st : IState) : IState :=
  { st with stats :=
    { st.stats with skippedBySize := st.stats.skippedBySize + 1 } }

def extSkipped (st : IState) : IState :=
  { st with stats :=
    { st.stats with skippedByExt := st.stats.skippedByExt + 1 } }

/-- With a matching cached fingerprint, `importUri` reduces to the three
pre-checks and otherwise does nothing — in particular the result does not
depend on the parse outcome or the sink. -/
theorem importUri_cached_eq (hashFn : String → String) (maxFileSize : Nat)
    (inp : ImportInput) (parseOutcome : Except String ParseResult)
    (sinkOk : Bool) (batchId : Option String) (enableXfile : Bool)
    (hierAt : Nat → Nat → Option (List CFItem)) (xfileCap : Nat)
    (cancelled : Bool) (st : IState)
    (h : st.fingerprints.lookup (normalizePath inp.fsPath)
        = some (hashFn inp.text)) :
    importUri hashFn maxFileSize inp parseOutcome sinkOk batchId enableXfile
        hierAt xfileCap cancelled st
      = if cancelled then st
        else if inp.size ≠ 0 ∧ inp.size > maxFileSize then sizeSkipped st
        else if SKIP_EXTS.contains (extOf inp.fsPath) then extSkipped st
        else st := by
  unfold importUri
  by_cases hc : cancelled
  · rw [if_pos hc, if_pos hc]
  · rw [if_neg hc, if_neg hc]
    by_cases hs : inp.size ≠ 0 ∧ inp.size > maxFileSize
    · rw [if_pos hs, if_pos hs]; rfl
    · rw [if_neg hs, if_neg hs]
      by_cases he : SKIP_EXTS.contains (extOf inp.fsPath)
      · rw [if_pos he, if_pos he]; rfl
      · rw [if_neg he, if_neg he, if_pos h]

/-- C3.  When the content hash equals the cached fingerprint for the path,
`importUri` is a no-op on the shared state: the Fingerprint Cache, the
Parse Index and the emitted-delta sequence are untouched, the file is
counted neither in a success bucket nor as failed, and the result does not
depend on the parse outcome or the sink (no re-parse is attempted). -/
theorem importUri_unchanged_noop (hashFn : String → String)
    (maxFileSize : Nat) (inp : ImportInput)
    (parseOutcome : Except String ParseResult) (sinkOk : Bool)
    (batchId : Option String) (enableXfile : Bool)
    (hierAt : Nat → Nat → Option (List CFItem)) (xfileCap : Nat)
    (cancelled : Bool) (st : IState)
    (h : st.fingerprints.lookup (normalizePath inp.fsPath)
        = some (hashFn inp.text)) :
    ((importUri hashFn maxFileSize inp parseOutcome sinkOk batchId
        enableXfile hierAt xfileCap cancelled st).fingerprints
      = st.fingerprints) ∧
    ((importUri hashFn maxFileSize inp parseOutcome sinkOk batchId
        enableXfile hierAt xfileCap cancelled st).index = st.index) ∧
    ((importUri hashFn maxFileSize inp parseOutcome sinkOk batchId
        enableXfile hierAt xfileCap cancelled st).emitted = st.emitted) ∧
    ((importUri hashFn maxFileSize inp parseOutcome sinkOk batchId
        enableXfile hierAt xfileCap cancelled st).stats.importedOk
      = st.stats.importedOk) ∧
    ((importUri hashFn maxFileSize inp parseOutcome sinkOk batchId
        enableXfile hierAt xfileCap cancelled st).stats.importedPartial
      = st.stats.importedPartial) ∧
    ((importUri hashFn maxFileSize inp parseOutcome sinkOk batchId
        enableXfile hierAt xfileCap cancelled st).stats.importedNoLsp
      = st.stats.importedNoLsp) ∧
    ((importUri hashFn maxFileSize inp parseOutcome sinkOk batchId
        enableXfile hierAt xfileCap cancelled st).stats.failed
      = st.stats.failed) ∧
    (∀ po2 sk2,
      importUri hashFn maxFileSize inp po2 sk2 batchId enableXfile hierAt
          xfileCap cancelled st
        = importUri hashFn maxFileSize inp parseOutcome sinkOk batchId
            enableXfile hierAt xfileCap cancelled st) := by
  rw [importUri_cached_eq hashFn maxFileSize inp parseOutcome sinkOk batchId
    enableXfile hierAt xfileCap cancelled st h]
  refine ⟨?_, ?_, ?_, ?_, ?_, ?_, ?_, ?_⟩
  · split_ifs <;> rfl
  · split_ifs <;> rfl
  · split_ifs <;> rfl
  · split_ifs <;> rfl
  · split_ifs <;> rfl
  · split_ifs <;> rfl
  · split_ifs <;> rfl
  · intro po2 sk2
    rw [importUri_cached_eq hashFn maxFileSize inp po2 sk2 batchId
      enableXfile hierAt xfileCap cancelled st h]

/-- Witness for `importUri_unchanged_noop`. -/
theorem importUri_unchanged_noop_witness :
    (importUri (fun s => toString s.length) 1000000
        { fsPath := "a.ts", size := 3, text := "abc" }
        (Except.error "boom") true none true (fun _ _ => none) 5000 false
        { fingerprints := [("a.ts", "3")], index := [], emitted := [],
          stats := ⟨0, 0, 0, 0, 0, 0⟩ }).emitted = [] :=
  ((importUri_unchanged_noop (fun s => toString s.length) 1000000
    { fsPath := "a.ts", size := 3, text := "abc" }
    (Except.error "boom") true none true (fun _ _ => none) 5000 false
    { fingerprints := [("a.ts", "3")], index := [], emitted := [],
      stats := ⟨0, 0, 0, 0, 0, 0⟩ } (by decide)).2.2.1)

theorem setA_lookup_self {β : Type} :
    ∀ (l : List (String × β)) (k : String) (v : β),
      List.lookup k (setA l k v) = some v := by
  intro l
  induction l with
  | nil =>
    intro k v
    simp [setA, List.lookup]
  | cons p rest ih =>
    intro k v
    simp only [setA]
    by_cases hk : p.1 = k
    · rw [if_pos hk]
      simp [List.lookup]
    · rw [if_neg hk]
      rw [List.lookup]
      have : (k == p.1) = false := by
        simp only [beq_eq_false_iff_ne, ne_eq]
        exact fun hkk => hk hkk.symm
      rw [this]
      exact ih k v

/-- The post-fingerprint tail never touches the Fingerprint Cache. -/
theorem importUriAfterFp_fingerprints (inp : ImportInput) (sinkOk : Bool)
    (batchId : Option String) (enableXfile : Bool)
    (hierAt : Nat → Nat → Option (List CFItem)) (xfileCap : Nat)
    (st : IState) (po : Except String ParseResult) :
    (importUriAfterFp inp sinkOk batchId enableXfile hierAt xfileCap st
        po).fingerprints = st.fingerprints := by
  cases po with
  | error e =>
    simp only [importUriAfterFp]
    split_ifs <;> rfl
  | ok result =>
    simp only [importUriAfterFp]
    by_cases hsk : !sinkOk
    · rw [if_pos hsk]; rfl
    · rw [if_neg hsk]
      by_cases hx : enableXfile ∧ result.status ≠ PStatus.nolsp
      · rw [if_pos hx]
        split_ifs <;> cases result.status <;> rfl
      · rw [if_neg hx]
        cases result.status <;> rfl

/-- The post-fingerprint tail increments `failed` when the parse throws or
the sink rejects the delta. -/
theorem importUriAfterFp_failed (inp : ImportInput)
    (batchId : Option String) (enableXfile : Bool)
    (hierAt : Nat → Nat → Option (List CFItem)) (xfileCap : Nat)
    (st : IState) (po : Except String ParseResult) (sinkOk : Bool)
    (hfail : (∃ e, po = Except.error e) ∨ sinkOk = false) :
    st.stats.failed <
      (importUriAfterFp inp sinkOk batchId enableXfile hierAt xfileCap st
        po).stats.failed := by
  cases po with
  | error e =>
    simp only [importUriAfterFp]
    split_ifs <;> (first | (simp [addFailed]; omega) | simp [addFailed])
  | ok result =>
    have hsk : sinkOk = false := by
      rcases hfail with ⟨e, he⟩ | h
      · exact absurd he (by simp)
      · exact h
    subst hsk
    simp only [importUriAfterFp]
    rw [if_pos (show (!false) = true from rfl)]
    simp [addFailed]

theorem importUri_new_eq (hashFn : String → String) (maxFileSize : Nat)
    (inp : ImportInput) (po : Except String ParseResult) (sinkOk : Bool)
    (batchId : Option String) (enableXfile : Bool)
    (hierAt : Nat → Nat → Option (List CFItem)) (xfileCap : Nat)
    (st : IState)
    (hs : ¬(inp.size ≠ 0 ∧ inp.size > maxFileSize))
    (he : ¬ SKIP_EXTS.contains (extOf inp.fsPath))
    (hnew : ¬ st.fingerprints.lookup (normalizePath inp.fsPath)
        = some (hashFn inp.text)) :
    importUri hashFn maxFileSize inp po sinkOk batchId enableXfile hierAt
        xfileCap false st
      = importUriAfterFp inp sinkOk batchId enableXfile hierAt xfileCap
          { st with
            fingerprints := setA st.fingerprints (normalizePath inp.fsPath)
              (hashFn inp.text),
            index := eraseA st.index inp.fsPath } po := by
  unfold importUri
  rw [if_neg (by simp), if_neg hs, if_neg he, if_neg hnew]

theorem importUri_cached_noskip_eq (hashFn : String → String)
    (maxFileSize : Nat) (inp : ImportInput)
    (po : Except String ParseResult) (sinkOk : Bool)
    (batchId : Option String) (enableXfile : Bool)
    (hierAt : Nat → Nat → Option (List CFItem)) (xfileCap : Nat)
    (st : IState)
    (hs : ¬(inp.size ≠ 0 ∧ inp.size > maxFileSize))
    (he : ¬ SKIP_EXTS.contains (extOf inp.fsPath))
    (h : st.fingerprints.lookup (normalizePath inp.fsPath)
        = some (hashFn inp.text)) :
    importUri hashFn maxFileSize inp po sinkOk batchId enableXfile hierAt
        xfileCap false st = st := by
  unfold importUri
  rw [if_neg (by simp), if_neg hs, if_neg he, if_pos h]

/-- C10.  The fingerprint entry is overwritten before the parse is
attempted, so a failed attempt (the parse throws, or the sink rejects the
delta — the file is tallied as failed either way) leaves the new hash
stored, and a subsequent `importUri` of the same path with identical
content is a pure no-op: no re-parse (any parse outcome and sink give the
same result) and no emitted delta. -/
theorem importUri_failure_keeps_fingerprint (hashFn : String → String)
    (maxFileSize : Nat) (inp : ImportInput)
    (parseOutcome : Except String ParseResult) (sinkOk : Bool)
    (batchId : Option String) (enableXfile : Bool)
    (hierAt : Nat → Nat → Option (List CFItem)) (xfileCap : Nat)
    (st : IState)
    (hs : ¬(inp.size ≠ 0 ∧ inp.size > maxFileSize))
    (he : ¬ SKIP_EXTS.contains (extOf inp.fsPath))
    (hnew : ¬ st.fingerprints.lookup (normalizePath inp.fsPath)
        = some (hashFn inp.text))
    (hfail : (∃ e, parseOutcome = Except.error e) ∨ sinkOk = false) :
    ((importUri hashFn maxFileSize inp parseOutcome sinkOk batchId
        enableXfile hierAt xfileCap false st).fingerprints.lookup
          (normalizePath inp.fsPath) = some (hashFn inp.text)) ∧
    (st.stats.failed <
      (importUri hashFn maxFileSize inp parseOutcome sinkOk batchId
        enableXfile hierAt xfileCap false st).stats.failed) ∧
    (∀ po2 sk2,
      importUri hashFn maxFileSize inp po2 sk2 batchId enableXfile hierAt
          xfileCap false
          (importUri hashFn maxFileSize inp parseOutcome sinkOk batchId
            enableXfile hierAt xfileCap false st)
        = importUri hashFn maxFileSize inp parseOutcome sinkOk batchId
            enableXfile hierAt xfileCap false st) := by
  rw [importUri_new_eq hashFn maxFileSize inp parseOutcome sinkOk batchId
    enableXfile hierAt xfileCap st hs he hnew]
  have hfp :
      (importUriAfterFp inp sinkOk batchId enableXfile hierAt xfileCap
        { st with
          fingerprints := setA st.fingerprints (normalizePath inp.fsPath)
            (hashFn inp.text),
          index := eraseA st.index inp.fsPath } parseOutcome).fingerprints.lookup
        (normalizePath inp.fsPath) = some (hashFn inp.text) := by
    rw [importUriAfterFp_fingerprints]
    exact setA_lookup_self st.fingerprints (normalizePath inp.fsPath)
      (hashFn inp.text)
  refine ⟨hfp, ?_, ?_⟩
  · have hlt := importUriAfterFp_failed inp batchId enableXfile hierAt
      xfileCap
      { st with
        fingerprints := setA st.fingerprints (normalizePath inp.fsPath)
          (hashFn inp.text),
        index := eraseA st.index inp.fsPath } parseOutcome sinkOk hfail
    exact hlt
  · intro po2 sk2
    exact importUri_cached_noskip_eq hashFn maxFileSize inp po2 sk2 batchId
      enableXfile hierAt xfileCap _ hs he hfp

/-- Witness for `importUri_failure_keeps_fingerprint`. -/
theorem importUri_failure_keeps_fingerprint_witness :
    ((importUri (fun s => toString s.length) 1000000
        { fsPath := "a.ts", size := 3, text := "abc" }
        (Except.error "boom") true none true (fun _ _ => none) 5000 false
        { fingerprints := [], index := [], emitted := [],
          stats := ⟨0, 0, 0, 0, 0, 0⟩ }).fingerprints.lookup
            (normalizePath "a.ts") = some "3") ∧
    (0 < (importUri (fun s => toString s.length) 1000000
        { fsPath := "a.ts", size := 3, text := "abc" }
        (Except.error "boom") true none true (fun _ _ => none) 5000 false
        { fingerprints := [], index := [], emitted := [],
          stats := ⟨0, 0, 0, 0, 0, 0⟩ }).stats.failed) :=
  ⟨(importUri_failure_keeps_fingerprint (fun s => toString s.length) 1000000
      { fsPath := "a.ts", size := 3, text := "abc" }
      (Except.error "boom") true none true (fun _ _ => none) 5000
      { fingerprints := [], index := [], emitted := [],
        stats := ⟨0, 0, 0, 0, 0, 0⟩ }
      (by decide) (by decide) (by decide) (Or.inl ⟨"boom", rfl⟩)).1,
   (importUri_failure_keeps_fingerprint (fun s => toString s.length) 1000000
      { fsPath := "a.ts", size := 3, text := "abc" }
      (Except.error "boom") true none true (fun _ _ => none) 5000
      { fingerprints := [], index := [], emitted := [],
        stats := ⟨0, 0, 0, 0, 0, 0⟩ }
      (by decide) (by decide) (by decide) (Or.inl ⟨"boom", rfl⟩)).2.1⟩

/-! ### Root resolution and the batch cap (`importMany`,
`findFilesFromRoots`)

`vscode.workspace.findFiles(include, exclude, maxResults)` is the external
query; its documented contract (at most `maxResults` results) is modelled
by taking a prefix of the environment's full match list.  Exclude-glob
filtering happens inside that query and is therefore part of the
environment. -/

structure WorkspaceEnv where
  folders : List String
  findFiles : Option String → String → List String

/-- `u.path.endsWith('/') || u.path.endsWith('\x5c')`. -/
def endsWithSlash (u : String) : Bool :=
  match u.data.getLast? with
  | some c => c = slashC || c = bsC
  | none => false

def lcStartsWith (pre s : String) : Bool :=
  (pre.data.map Char.toLower).isPrefixOf (s.data.map Char.toLower)

/-- `dir.toString().startsWith(f.uri.toString())` (case-sensitive). -/
def strStarts (pre s : String) : Bool := pre.data.isPrefixOf s.data

/-- The candidate push loop: stop as soon as the cap is reached. -/
def pushCapped (maxFiles : Nat) : List String → List String → List String
  | out, [] => out
  | out, c :: rest =>
    if out.length ≥ maxFiles then out
    else pushCapped maxFiles (out ++ [c]) rest

/-- The per-directory glob loop: each `findFiles` call is issued with
`maxResults = max(1, maxFiles - out.length)` — discovery itself is capped. -/
def ffDirGlobs (env : WorkspaceEnv) (maxFiles : Nat) (dir : String)
    (baseFolder : Option String) :
    List String → List String → List String
  | out, [] => out
  | out, glob :: globs =>
    let found := (env.findFiles baseFolder glob).take
      (max 1 (maxFiles - out.length))
    let inScope := match baseFolder with
      | some _ => found.filter (fun u => lcStartsWith dir u)
      | none => found
    let out2 := pushCapped maxFiles out inScope
    if out2.length ≥ maxFiles then out2
    else ffDirGlobs env maxFiles dir baseFolder out2 globs

def ffDirs (env : WorkspaceEnv) (maxFiles : Nat)
    (includeGlobs : List String) :
    List String → List String → List String
  | out, [] => out
  | out, dir :: dirs =>
    let baseFolder : Option String :=
      match env.folders.find? (fun f => strStarts f dir) with
      | some f => some f
      | none =>
        if env.folders.dedup.length = 1 then env.folders.head? else none
    let out2 := ffDirGlobs env maxFiles dir baseFolder out includeGlobs
    if out2.length ≥ maxFiles then out2
    else ffDirs env maxFiles includeGlobs out2 dirs

/-- `findFilesFromRoots(roots, includeGlobs, excludeGlobs, maxFiles)`:
explicit files pass through uncapped; directories are expanded through the
capped `findFiles` queries. -/
def findFilesFromRoots (env : WorkspaceEnv) (roots includeGlobs : List String)
    (maxFiles : Nat) : List String :=
  let files := roots.filter (fun u => !(endsWithSlash u))
  let dirs := roots.filter (fun u => !(files.contains u))
  ffDirs env maxFiles includeGlobs files dirs

/-- The selection/summary layer of `importMany`: how many files were
found, which prefix is processed (`files.slice(0, maxFiles)` fed to the
batched `importUri` loop), and whether the `Found N files, importing first
M` message fired (`totalFound > maxFiles`). -/
structure BatchPlan where
  totalFound : Nat
  capped : List String
  capMessageShown : Bool
deriving Repr, DecidableEq

def importMany (env : WorkspaceEnv) (roots includeGlobs : List String)
    (hardCap : Nat) : BatchPlan :=
  let maxFiles := max 1 hardCap
  let files := findFilesFromRoots env roots includeGlobs maxFiles
  { totalFound := files.length, capped := files.take maxFiles,
    capMessageShown := decide (files.length > maxFiles) }

/-- The C8 counterexample environment: one workspace folder and a glob
matching 100 files inside the requested directory. -/
def c8Env : WorkspaceEnv :=
  { folders := ["ws/"],
    findFiles := fun _ _ =>
      (List.range 100).map
        (fun i => "ws/dir/f" ++ String.mk (List.replicate i (Char.ofNat 97))) }

/-- C8 (counterexample).  With a directory root whose expansion matches
100 candidate files and `maxFiles = 10`, discovery itself is capped: the
summary reports 10 found (not 100), and the cap message never fires. -/
theorem importMany_dir_counterexample :
    ((c8Env.findFiles (some "ws/") "**/*").length = 100) ∧
    (importMany c8Env ["ws/dir/"] ["**/*"] 10).totalFound = 10 ∧
    (importMany c8Env ["ws/dir/"] ["**/*"] 10).capped.length = 10 ∧
    (importMany c8Env ["ws/dir/"] ["**/*"] 10).totalFound ≠ 100 ∧
    (importMany c8Env ["ws/dir/"] ["**/*"] 10).capMessageShown = false := by
  refine ⟨by rfl, by rfl, by rfl, by decide, by rfl⟩

/-- C8 (amended).  The cap-and-report behaviour claimed holds for explicit
file roots: if every root is a file (no trailing slash), all of them are
found and reported, exactly `min(maxFiles, found)` are processed, and the
`Found N, importing first M` message fires exactly when the cap truncates.
For directory roots, discovery is already capped at `maxFiles` (the
counterexample), so a `100 found / 10 imported` summary cannot arise from
glob expansion. -/
theorem importMany_explicit_files_cap (env : WorkspaceEnv)
    (roots includeGlobs : List String) (hardCap : Nat)
    (hfiles : ∀ r ∈ roots, endsWithSlash r = false) :
    (importMany env roots includeGlobs hardCap).totalFound = roots.length ∧
    (importMany env roots includeGlobs hardCap).capped
      = roots.take (max 1 hardCap) ∧
    ((importMany env roots includeGlobs hardCap).capMessageShown = true
      ↔ roots.length > max 1 hardCap) := by
  have hfilter : roots.filter (fun u => !(endsWithSlash u)) = roots := by
    rw [List.filter_eq_self]
    intro a ha
    simp [hfiles a ha]
  have hdirs :
      roots.filter (fun u => !(roots.contains u)) = [] := by
    rw [List.filter_eq_nil_iff]
    intro a ha
    simp [ha]
  have hff : findFilesFromRoots env roots includeGlobs (max 1 hardCap)
      = roots := by
    unfold findFilesFromRoots
    simp only [hfilter]
    show ffDirs env (max 1 hardCap) includeGlobs roots
      (roots.filter (fun u => !(roots.contains u))) = roots
    rw [hdirs]
    rfl
  simp only [importMany]
  rw [hff]
  refine ⟨rfl, rfl, by simp⟩

/-- Witness for `importMany_explicit_files_cap`: 100 explicit file roots
with `maxFiles = 10` give a `100 found / first 10 imported` report. -/
theorem importMany_explicit_files_cap_witness :
    (importMany c8Env
        ((List.range 100).map
          (fun i => "ws/dir/f" ++ String.mk (List.replicate i (Char.ofNat 97))))
        ["**/*"] 10).totalFound = 100 ∧
    (importMany c8Env
        ((List.range 100).map
          (fun i => "ws/dir/f" ++ String.mk (List.replicate i (Char.ofNat 97))))
        ["**/*"] 10).capped.length = 10 ∧
    (importMany c8Env
        ((List.range 100).map
          (fun i => "ws/dir/f" ++ String.mk (List.replicate i (Char.ofNat 97))))
        ["**/*"] 10).capMessageShown = true := by
  have h := importMany_explicit_files_cap c8Env
    ((List.range 100).map
      (fun i => "ws/dir/f" ++ String.mk (List.replicate i (Char.ofNat 97))))
    ["**/*"] 10 (by decide)
  refine ⟨by rw [h.1]; rfl, by rw [h.2.1]; rfl, h.2.2.mpr (by decide)⟩

end DepViz
